import Mathlib

/-!
Verification of the quick_notes note store against its specification.

The Rust sources are shallowly embedded: strings are lists of Unicode
scalars (`List Char`), files are association lists from id to raw content,
the process-wide id-generator state is threaded explicitly, and the clock
(`chrono::Local::now().timestamp_micros()`) is passed in as a stream of
integer readings.  Functions from the chrono library (timestamp parsing
and formatting) are external collaborators and are abstracted as function
parameters where they feed a computation.
-/

abbrev Str := List Char

/-- Whitespace predicate used by `str::trim` (ASCII subset; the fields the
round-trip law quantifies over are constrained through this predicate). -/
def isWS (c : Char) : Bool :=
  c = ' ' ∨ c = '\t' ∨ c = '\n' ∨ c = '\r'

/-- Embedding of `str::trim_start`. -/
def trimLeft (l : Str) : Str := l.dropWhile isWS

/-- Embedding of `str::trim_end`. -/
def trimRight (l : Str) : Str := (l.reverse.dropWhile isWS).reverse

/-- Embedding of `str::trim`. -/
def rustTrim (l : Str) : Str := trimRight (trimLeft l)

/-- Embedding of `str::strip_prefix`: removes `key` from the front of `l`
when it is there. -/
def dropKey : Str → Str → Option Str
  | [], l => some l
  | _ :: _, [] => none
  | k :: ks, c :: cs => if c = k then dropKey ks cs else none

/-- Splitting on a separator character; mirrors `str::split(c)` (which
always yields at least one piece). -/
def splitOnChar (sep : Char) : Str → List Str
  | [] => [[]]
  | c :: rest =>
    if c = sep then [] :: splitOnChar sep rest
    else
      match splitOnChar sep rest with
      | [] => [[c]]
      | l :: ls => (c :: l) :: ls

/-- Drop one trailing carriage return, as `str::lines` does per line. -/
def stripCR (l : Str) : Str :=
  match l.reverse with
  | '\r' :: rest => rest.reverse
  | _ => l

/-- Embedding of `str::lines`: split on newline, drop the optional final
empty piece, strip one trailing CR per line. -/
def linesR (s : Str) : List Str :=
  let ls := splitOnChar '\n' s
  let ls := if ls.getLast? = some [] then ls.dropLast else ls
  ls.map stripCR

/-- First index at which the five-character separator pattern
`"\n---\n"` occurs, mirroring `raw.find("\n---\n")`. -/
def findSep : Str → Option Nat
  | [] => none
  | c :: rest =>
    if (c :: rest).take 5 = ['\n', '-', '-', '-', '\n'] then some 0
    else (findSep rest).map (· + 1)

/-- Header key `Title:` as written and recognized by the codec. -/
def kTitle : Str := ['T', 'i', 't', 'l', 'e', ':']

/-- Header key `Created:`. -/
def kCreated : Str := ['C', 'r', 'e', 'a', 't', 'e', 'd', ':']

/-- Header key `Updated:`. -/
def kUpdated : Str := ['U', 'p', 'd', 'a', 't', 'e', 'd', ':']

/-- Header key `Deleted:`. -/
def kDeleted : Str := ['D', 'e', 'l', 'e', 't', 'e', 'd', ':']

/-- Header key `Archived:`. -/
def kArchived : Str := ['A', 'r', 'c', 'h', 'i', 'v', 'e', 'd', ':']

/-- Header key `Tags:`. -/
def kTags : Str := ['T', 'a', 'g', 's', ':']

/-- The Note record (src/note.rs). -/
structure Note where
  id : Str
  title : Str
  created : Str
  updated : Str
  deleted_at : Option Str
  archived_at : Option Str
  body : Str
  tags : List Str
  size_bytes : Nat
deriving DecidableEq

/-- Embedding of `normalize_tag` (src/lib.rs). -/
def normalize_tag (t : Str) : Str :=
  let trimmed := rustTrim t
  if trimmed = [] then []
  else if trimmed.head? = some '#' then trimmed
  else '#' :: trimmed

/-- Embedding of `body.trim_end_matches('\n')` from `write_note`. -/
def trimEndNl (b : Str) : Str := (b.reverse.dropWhile (· = '\n')).reverse

/-- Embedding of `join(", ")` over the tag list. -/
def joinCommaSpace : List Str → Str
  | [] => []
  | [t] => t
  | t :: rest => t ++ ',' :: ' ' :: joinCommaSpace rest

/-- The file content produced by `write_note` (src/note.rs), minus the
actual filesystem write. -/
def write_note_content (n : Note) : Str :=
  let body := trimEndNl n.body ++ ['\n']
  let tags_line :=
    if n.tags = [] then kTags
    else kTags ++ ' ' :: joinCommaSpace n.tags
  let deleted_line :=
    match n.deleted_at with
    | some d => kDeleted ++ ' ' :: d ++ ['\n']
    | none => []
  let archived_line :=
    match n.archived_at with
    | some a => kArchived ++ ' ' :: a ++ ['\n']
    | none => []
  kTitle ++ ' ' :: n.title ++ '\n' ::
    (kCreated ++ ' ' :: n.created ++ '\n' ::
      (kUpdated ++ ' ' :: n.updated ++ '\n' ::
        (deleted_line ++ archived_line ++ tags_line ++
          '\n' :: '-' :: '-' :: '-' :: '\n' :: body)))

/-- Accumulator for the header-line loop of `parse_note`. -/
structure HeaderAcc where
  title : Str
  created : Str
  updated : Str
  deleted_at : Option Str
  archived_at : Option Str
  tags : List Str
deriving DecidableEq

def emptyAcc : HeaderAcc := ⟨[], [], [], none, none, []⟩

/-- One iteration of the header loop of `parse_note`: the if/else chain
over the recognized keys. -/
def headerStep (acc : HeaderAcc) (line : Str) : HeaderAcc :=
  match dropKey kTitle line with
  | some v => { acc with title := rustTrim v }
  | none =>
  match dropKey kCreated line with
  | some v => { acc with created := rustTrim v }
  | none =>
  match dropKey kUpdated line with
  | some v => { acc with updated := rustTrim v }
  | none =>
  match dropKey kDeleted line with
  | some v => { acc with deleted_at := some (rustTrim v) }
  | none =>
  match dropKey kArchived line with
  | some v => { acc with archived_at := some (rustTrim v) }
  | none =>
  match dropKey kTags line with
  | some v =>
      { acc with
        tags := ((splitOnChar ',' v).map (fun t => normalize_tag (rustTrim t))).filter
          (fun t => ¬t = []) }
  | none => acc

/-- Embedding of `parse_note` (src/note.rs).  The raw file content is given
directly; `stem` stands for the file stem of the path (the filesystem is
outside the embedding) and `size` for the size hint. -/
def parse_note (raw : Str) (stem : Str) (size : Nat) : Note :=
  let p :=
    match findSep raw with
    | some idx => (raw.take (idx + 5), raw.drop (idx + 5))
    | none => (([] : Str), raw)
  let acc := (linesR p.1).foldl headerStep emptyAcc
  { id := stem
    title := acc.title
    created := acc.created
    updated := acc.updated
    deleted_at := acc.deleted_at
    archived_at := acc.archived_at
    body := p.2
    tags := acc.tags
    size_bytes := size }

/-- A well-formed header field value: no embedded newline and no
whitespace at either end (it survives the `trim` on read). -/
def fieldOk (l : Str) : Prop :=
  (∀ c ∈ l, c ≠ '\n') ∧ trimLeft l = l ∧ trimRight l = l

instance : DecidablePred fieldOk := fun l => by
  unfold fieldOk; infer_instance

/-- A well-formed optional stamp value. -/
def optOk : Option Str → Prop
  | none => True
  | some v => fieldOk v

instance : DecidablePred optOk := fun o => by
  cases o <;> (unfold optOk; infer_instance)

/-- A well-formed (normalized) tag: nonempty, `#`-prefixed, trimmed, and
free of newlines and commas, matching the normalization the spec requires
of stored tags. -/
def tagOk (t : Str) : Prop :=
  t ≠ [] ∧ t.head? = some '#' ∧ trimLeft t = t ∧ trimRight t = t ∧
    ∀ c ∈ t, c ≠ '\n' ∧ c ≠ ','

instance : DecidablePred tagOk := fun t => by
  unfold tagOk; infer_instance

/-- Validity of a Note as the spec describes serialized notes: header
fields are single-line and trimmed, stamps likewise, tags normalized. -/
def validNote (n : Note) : Prop :=
  fieldOk n.title ∧ fieldOk n.created ∧ fieldOk n.updated ∧
    optOk n.deleted_at ∧ optOk n.archived_at ∧ ∀ t ∈ n.tags, tagOk t

instance : DecidablePred validNote := fun n => by
  unfold validNote; infer_instance

/-- No newline immediately followed by a dash occurs in the list; the
separator pattern cannot start inside such a region. -/
def noNlDash : Str → Prop
  | [] => True
  | [_] => True
  | a :: b :: rest => ¬(a = '\n' ∧ b = '-') ∧ noNlDash (b :: rest)

/-- Join a list of lines with newline separators (no trailing newline). -/
def joinNl : List Str → Str
  | [] => []
  | [l] => l
  | l :: rest => l ++ '\n' :: joinNl rest

/-- The raw value following the `Tags:` key in a serialized note. -/
def tagsVal (ts : List Str) : Str :=
  if ts = [] then [] else ' ' :: joinCommaSpace ts

/-- The base-62 alphabet of `encode_base62` (src/note.rs). -/
def alphabet62 : Str :=
  ['0', '1', '2', '3', '4', '5', '6', '7', '8', '9',
   'A', 'B', 'C', 'D', 'E', 'F', 'G', 'H', 'I', 'J', 'K', 'L', 'M',
   'N', 'O', 'P', 'Q', 'R', 'S', 'T', 'U', 'V', 'W', 'X', 'Y', 'Z',
   'a', 'b', 'c', 'd', 'e', 'f', 'g', 'h', 'i', 'j', 'k', 'l', 'm',
   'n', 'o', 'p', 'q', 'r', 's', 't', 'u', 'v', 'w', 'x', 'y', 'z']

/-- Digit lookup `ALPHABET[idx]`. -/
def base62Char (d : Nat) : Char := alphabet62.getD d '0'

/-- The while-loop of `encode_base62`, producing digits least significant
first; structural recursion on a fuel bound (the loop strictly decreases
`n`, so fuel `n` always suffices). -/
def lsDigitsF : Nat → Nat → Str
  | 0, _ => []
  | fuel + 1, n =>
    if n = 0 then [] else base62Char (n % 62) :: lsDigitsF fuel (n / 62)

/-- Digits of `n`, least significant first, as the while-loop of
`encode_base62` produces them. -/
def lsDigits (n : Nat) : Str := lsDigitsF n n

/-- Embedding of `encode_base62` (src/note.rs). -/
def encode_base62 (n : Nat) : Str :=
  if n = 0 then ['0'] else (lsDigits n).reverse

/-- Embedding of `encode_base62_width` (src/note.rs): left-pad with zeros
to the requested width. -/
def encode_base62_width (n w : Nat) : Str :=
  let b := encode_base62 n
  if w ≤ b.length then b else List.replicate (w - b.length) '0' ++ b

/-- `ID_TS_WIDTH` (src/note.rs). -/
def ID_TS_WIDTH : Nat := 9

/-- The process-wide id-generator state (src/note.rs `IdState`). -/
structure IdState where
  last_ts : Int
  counter : Nat
deriving DecidableEq

/-- Saturating increment of the `u32` counter. -/
def satSucc (c : Nat) : Nat := min (c + 1) 4294967295

/-- The loop of `generate_new_id` (src/note.rs), with the clock passed as
a stream of `timestamp_micros` readings (one per iteration, argument `k`),
the on-disk existence check as a predicate, the reserved set as a list,
and fuel standing for the partiality of the unbounded retry loop. -/
def genLoop (clock : Nat → Int) (exF : Str → Bool) :
    Nat → List Str → IdState → Nat → Option (Str × IdState)
  | 0, _, _, _ => none
  | fuel + 1, reserved, st, k =>
    let now := clock k
    let ts := if now ≤ st.last_ts then st.last_ts + 1 else now
    let st1 := if ts = st.last_ts then { st with counter := satSucc st.counter }
               else { last_ts := ts, counter := 0 }
    let ts_enc := encode_base62_width ts.toNat ID_TS_WIDTH
    let id := if st1.counter = 0 then ts_enc
              else ts_enc ++ encode_base62 st1.counter
    if id ∉ reserved ∧ exF id = false then some (id, st1)
    else genLoop clock exF fuel (id :: reserved) { st1 with counter := satSucc st1.counter } (k + 1)

/-- Embedding of `generate_new_id` (src/note.rs): one call, from a given
state. -/
def generate_new_id (fuel : Nat) (clock : Nat → Int) (exF : Str → Bool)
    (reserved : List Str) (st : IdState) : Option (Str × IdState) :=
  genLoop clock exF fuel reserved st 0

/-- The same loop with the counter mechanism and the suffix branch
removed: each candidate is just the padded timestamp encoding.  Used to
state that the suffix branch of the source is unreachable. -/
def genLoopNoCtr (clock : Nat → Int) (exF : Str → Bool) :
    Nat → List Str → Int → Nat → Option (Str × Int)
  | 0, _, _, _ => none
  | fuel + 1, reserved, lastTs, k =>
    let now := clock k
    let ts := if now ≤ lastTs then lastTs + 1 else now
    let id := encode_base62_width ts.toNat ID_TS_WIDTH
    if id ∉ reserved ∧ exF id = false then some (id, ts)
    else genLoopNoCtr clock exF fuel (id :: reserved) ts (k + 1)

/-- Fixed-width base-62 digit string (most significant first), the
mathematical reference for `encode_base62_width`. -/
def digitsBE : Nat → Nat → Str
  | 0, _ => []
  | w + 1, n => digitsBE w (n / 62) ++ [base62Char (n % 62)]

/-- Byte-string (lexicographic) strict order, as Rust compares `String`s. -/
def bytesLtB : Str → Str → Bool
  | _, [] => false
  | [], _ :: _ => true
  | a :: as, b :: bs => if a < b then true else if b < a then false else bytesLtB as bs

/-- Propositional form of the byte-string order. -/
def bytesLt (a b : Str) : Prop := bytesLtB a b = true

instance : DecidablePred fun p : Str × Str => bytesLt p.1 p.2 := fun p => by
  unfold bytesLt; infer_instance

instance : DecidableRel bytesLt := fun a b => by
  unfold bytesLt; infer_instance

/-- Inputs of one `generate_new_id` call: the clock readings it will see,
the on-disk existence check, the caller-supplied reserved set, and fuel
for the retry loop. -/
structure GenCall where
  clock : Nat → Int
  exF : Str → Bool
  reserved : List Str
  fuel : Nat

/-- A sequence of `generate_new_id` calls within one process, threading
the mutex-guarded `IdState`; stops at the first failed (out-of-fuel)
call. -/
def runCalls : List GenCall → IdState → List Str × IdState
  | [], st => ([], st)
  | c :: rest, st =>
    match generate_new_id c.fuel c.clock c.exF c.reserved st with
    | none => ([], st)
    | some (id, st1) =>
      let r := runCalls rest st1
      (id :: r.1, r.2)

/-- The three storage areas (src/lib.rs `Area`). -/
inductive Area
  | Active
  | Trash
  | Archive
deriving DecidableEq

/-- A directory of note files: an association list from id (file stem) to
raw file content. -/
abbrev FS := List (Str × Str)

/-- File lookup by id, mirroring `note_path(dir, id).exists()` plus read. -/
def lookupFS : FS → Str → Option Str
  | [], _ => none
  | e :: rest, k => if e.1 = k then some e.2 else lookupFS rest k

/-- Embedding of `fs::remove_file` on the directory map. -/
def eraseFS : FS → Str → FS
  | [], _ => []
  | e :: rest, k => if e.1 = k then eraseFS rest k else e :: eraseFS rest k

/-- Embedding of a file write (create or overwrite), also the effect of
`fs::rename` onto the destination path. -/
def insertFS (m : FS) (k v : Str) : FS := (k, v) :: eraseFS m k

/-- Embedding of `move_note_with_timestamp` (src/lib.rs): read the note
from the source directory, stamp it for the target area with the current
formatted time `nowS`, write it into the destination, delete the source
file.  Returns the updated (source, destination) directories. -/
def move_note_with_timestamp (fromD toD : FS) (id : Str) (area : Area)
    (nowS : Str) : Option (FS × FS) :=
  match lookupFS fromD id with
  | none => none
  | some content =>
    let note := parse_note content id content.length
    let note2 :=
      match area with
      | Area.Trash => { note with deleted_at := some nowS, archived_at := none }
      | Area.Archive => { note with archived_at := some nowS, deleted_at := none }
      | Area.Active => { note with deleted_at := none, archived_at := none }
    some (eraseFS fromD id, insertFS toD id (write_note_content note2))

/-- Result of `restore_note`: the id the note ends up under and the two
updated directories, plus the generator state. -/
structure RestoreOut where
  finalId : Str
  fromD : FS
  toD : FS
  st : IdState
deriving DecidableEq

/-- Embedding of `restore_note` (src/lib.rs).  When the destination
already holds the id, a fresh id is generated (reserved set starts empty,
existence checked against the destination directory) and the note is
rewritten under it; otherwise the note is written with cleared stamps and
then `fs::rename(src, dst)` moves the raw source file onto the
destination path, overwriting that write. -/
def restore_note (fuel : Nat) (clock : Nat → Int) (id : Str)
    (fromD toD : FS) (st : IdState) : Option RestoreOut :=
  match lookupFS fromD id with
  | none => none
  | some content =>
    let size := content.length
    if (lookupFS toD id).isSome then
      match genLoop clock (fun i => (lookupFS toD i).isSome) fuel [] st 0 with
      | none => none
      | some (newId, st2) =>
        let note := parse_note content id size
        let note2 := { note with id := newId, deleted_at := none, archived_at := none }
        some ⟨newId, eraseFS fromD id, insertFS toD newId (write_note_content note2), st2⟩
    else
      let note := parse_note content id size
      let note2 := { note with deleted_at := none, archived_at := none }
      let written := insertFS toD id (write_note_content note2)
      some ⟨id, eraseFS fromD id, insertFS written id content, st⟩

/-- Embedding of `trash_retention_days` (src/lib.rs): the environment
value (already parsed to an integer when present and numeric) is used if
nonnegative, else the default of 30. -/
def trash_retention_days (env : Option Int) : Int :=
  match env with
  | some v => if 0 ≤ v then v else 30
  | none => 30

/-- Microseconds per day: `chrono::Duration::days(1)` at the microsecond
resolution used for instants. -/
def dayMicros : Int := 86400000000

/-- Embedding of `clean_trash` (src/lib.rs).  Timestamp parsing
(`parse_timestamp`, chrono) is abstracted as `parseTs`; `now` is the
current instant; `files` the listed trash directory.  Returns the files
that remain (the others are removed from disk). -/
def clean_trash (parseTs : Str → Option Int) (now : Int) (env : Option Int)
    (files : List (Str × Str)) : List (Str × Str) :=
  let retention := trash_retention_days env
  if retention = 0 then files
  else
    let cutoff := now - retention * dayMicros
    files.filter (fun f =>
      let note := parse_note f.2 f.1 f.2.length
      match parseTs (note.deleted_at.getD note.updated) with
      | some ts => if ts < cutoff then false else true
      | none => true)

/-- Character comparison (`Ord` on byte values / scalars). -/
def charCmp (x y : Char) : Ordering :=
  if x < y then Ordering.lt else if y < x then Ordering.gt else Ordering.eq

/-- Lexicographic comparison of strings, as Rust `String::cmp`. -/
def cmpChars : Str → Str → Ordering
  | [], [] => Ordering.eq
  | [], _ :: _ => Ordering.lt
  | _ :: _, [] => Ordering.gt
  | a :: as, b :: bs => (charCmp a b).then (cmpChars as bs)

/-- Integer comparison (`Ord` on chrono instants, modelled as integers). -/
def cmpI (a b : Int) : Ordering :=
  if a < b then Ordering.lt else if b < a then Ordering.gt else Ordering.eq

/-- Natural-number comparison (`Ord` on `usize` counts). -/
def cmpN (a b : Nat) : Ordering :=
  if a < b then Ordering.lt else if b < a then Ordering.gt else Ordering.eq

/-- Per-tag aggregate of `list_tags` (src/lib.rs `TagStat`), with chrono
instants modelled as integers. -/
structure TagStat where
  count : Nat
  first : Option Int
  last : Option Int
deriving DecidableEq

/-- The sort comparator of `list_tags` (src/lib.rs lines 1420-1429). -/
def tagCmp (a b : Str × TagStat) : Ordering :=
  ((match a.2.last, b.2.last with
    | some la, some lb => cmpI lb la
    | some _, none => Ordering.lt
    | none, some _ => Ordering.gt
    | none, none => Ordering.eq).then
      (cmpN b.2.count a.2.count)).then (cmpChars a.1 b.1)

/-- Nonstrict order induced by the comparator, as `sort_by` orders rows. -/
def tagLe (a b : Str × TagStat) : Prop := tagCmp a b ≠ Ordering.gt

instance : DecidableRel tagLe := fun a b => by
  unfold tagLe; infer_instance

/-- The presentation order of `list_tags`: a stable sort of the rows by
the comparator (Rust `sort_by`). -/
def sortTags (rows : List (Str × TagStat)) : List (Str × TagStat) :=
  rows.insertionSort tagLe

/-- The count/name tiebreak of the spec: count descending, then tag name
ascending. -/
def cntNameLe (a b : Str × TagStat) : Prop :=
  b.2.count < a.2.count ∨
    (b.2.count = a.2.count ∧ cmpChars a.1 b.1 ≠ Ordering.gt)

/-- The presentation order exactly as the spec words it: by `last_updated`
descending with absent timestamps after all present ones, ties by count
descending, then tag name ascending. -/
def specTagLe (a b : Str × TagStat) : Prop :=
  match a.2.last, b.2.last with
  | some la, some lb => lb < la ∨ (lb = la ∧ cntNameLe a b)
  | some _, none => True
  | none, some _ => False
  | none, none => cntNameLe a b

/-- Skip to just past the next `m`, as the escape-skipping loop of
`display_len` (src/shared/table.rs) does. -/
def skipEsc : Str → Str
  | [] => []
  | c :: rest => if c = 'm' then rest else skipEsc rest

/-- Embedding of `display_len` (src/shared/table.rs): visible length
ignoring ANSI escape sequences. -/
def displayLen : Str → Nat
  | [] => 0
  | c :: rest =>
    if c = '\x1b' then displayLen (skipEsc rest) else 1 + displayLen rest
termination_by s => s.length
decreasing_by
  · refine Nat.lt_succ_of_le ?_
    induction rest with
    | nil => simp [skipEsc]
    | cons c2 r2 ih =>
      rw [skipEsc]
      by_cases hc : c2 = 'm'
      · rw [if_pos hc]; simp
      · rw [if_neg hc]; simp; omega
  · simp

/-- Embedding of `truncate_with_ellipsis` (src/shared/table.rs). -/
def truncate_with_ellipsis (text : Str) (max_width : Nat) : Str :=
  if max_width = 0 then []
  else if text.length ≤ max_width then text
  else if max_width = 1 then ['…']
  else text.take (max_width - 1) ++ ['…']

/-- Embedding of `pad_field` (src/shared/table.rs). -/
def pad_field (display : Str) (target plain_len : Nat) : Str :=
  display ++ List.replicate (target - plain_len) ' '

/-- Decimal digit character. -/
def digitChar : Nat → Char
  | 0 => '0' | 1 => '1' | 2 => '2' | 3 => '3' | 4 => '4'
  | 5 => '5' | 6 => '6' | 7 => '7' | 8 => '8' | _ => '9'

/-- Decimal digits of a number (most significant first), as `Display`
renders the `u8` color components. -/
def natDigits (n : Nat) : Str :=
  if h : n < 10 then [digitChar n]
  else natDigits (n / 10) ++ [digitChar (n % 10)]
decreasing_by exact Nat.div_lt_self (by omega) (by norm_num)

/-- An ANSI escape sequence: ESC, the given codes, then `m`. -/
def escSeq (codes : Str) : Str := '\x1b' :: codes ++ ['m']

/-- Modelled output of `yansi::Paint::rgb(text, r, g, b).to_string()`. -/
def paintRgb (r g b : Nat) (s : Str) : Str :=
  escSeq ('[' :: '3' :: '8' :: ';' :: '2' :: ';' ::
      (natDigits r ++ ';' :: natDigits g ++ ';' :: natDigits b)) ++
    s ++ escSeq ['[', '0']

/-- Modelled output of `yansi::Paint::rgb(..).bold().to_string()`. -/
def paintRgbBold (r g b : Nat) (s : Str) : Str :=
  escSeq ('[' :: '1' :: ';' :: '3' :: '8' :: ';' :: '2' :: ';' ::
      (natDigits r ++ ';' :: natDigits g ++ ';' :: natDigits b)) ++
    s ++ escSeq ['[', '0']

/-- Embedding of `hash_tag` (src/lib.rs): DJB2-xor over the tag bytes
(scalar values here), in `u64` arithmetic. -/
def hash_tag (t : Str) : Nat :=
  t.foldl (fun h c => ((h <<< 5) + h) ^^^ c.toNat % 2 ^ 64) 5381

/-- The color palette of `color_for_tag` (src/lib.rs). -/
def tagPalette : List (Nat × Nat × Nat) :=
  [(137, 180, 250), (166, 227, 161), (249, 226, 175), (245, 194, 231),
   (255, 169, 167), (148, 226, 213), (198, 160, 246), (240, 198, 198),
   (244, 219, 214), (181, 232, 224), (135, 176, 249), (183, 189, 248),
   (201, 203, 255), (255, 214, 165), (179, 255, 171), (255, 201, 210),
   (196, 181, 255), (186, 225, 255), (255, 241, 173), (204, 255, 229),
   (255, 199, 190), (214, 182, 255), (255, 214, 235), (168, 237, 255),
   (238, 231, 220), (211, 228, 205), (255, 234, 190), (214, 200, 255),
   (255, 210, 198), (204, 246, 221), (255, 230, 214), (196, 222, 255)]

/-- Embedding of `color_for_tag` (src/lib.rs). -/
def color_for_tag (t : Str) : Nat × Nat × Nat :=
  tagPalette.getD (hash_tag t % tagPalette.length) (0, 0, 0)

/-- Embedding of `format_tag_text` (src/lib.rs). -/
def format_tag_text (t : Str) (uc : Bool) : Str :=
  if uc then
    paintRgbBold (color_for_tag t).1 (color_for_tag t).2.1 (color_for_tag t).2.2 t
  else t

/-- Embedding of `format_id` (src/lib.rs). -/
def format_id (id : Str) (uc : Bool) : Str :=
  if uc then paintRgb 108 112 134 id else id

/-- Embedding of `format_header_label` (src/lib.rs). -/
def format_header_label (l : Str) (uc : Bool) : Str :=
  if uc then paintRgbBold 148 226 213 l else l

/-- Embedding of `format_timestamp` (src/lib.rs). -/
def format_timestamp (ts : Str) (uc : Bool) : Str :=
  if uc then paintRgb 137 180 250 ts else ts

/-- Column labels used by the list view. -/
def lID : Str := ['I', 'D']

def lUpdated : Str := ['U', 'p', 'd', 'a', 't', 'e', 'd']

def lCreated : Str := ['C', 'r', 'e', 'a', 't', 'e', 'd']

def lDeleted : Str := ['D', 'e', 'l', 'e', 't', 'e', 'd']

def lArchived : Str := ['A', 'r', 'c', 'h', 'i', 'v', 'e', 'd']

def lMoved : Str := ['M', 'o', 'v', 'e', 'd']

def lPreview : Str := ['P', 'r', 'e', 'v', 'i', 'e', 'w']

def lTags : Str := ['T', 'a', 'g', 's']

/-- Embedding of `time_label` (src/lib.rs); `determine_tz_label` (chrono)
is abstracted as the `tz` parameter. -/
def time_label (base : Str) (relative : Bool) (tz : Option Str) : Str :=
  if relative then base
  else
    match tz with
    | some t => base ++ ' ' :: '(' :: t ++ [')']
    | none => base

/-- Embedding of `updated_label` (src/lib.rs). -/
def updated_label (relative : Bool) (tz : Option Str) : Str :=
  time_label lUpdated relative tz

/-- The moved-column label per area (from `shrink_widths`). -/
def moved_label (area : Area) (relative : Bool) (tz : Option Str) : Str :=
  match area with
  | Area.Trash => time_label lDeleted relative tz
  | Area.Archive => time_label lArchived relative tz
  | Area.Active => time_label lMoved relative tz

/-- The per-column width record of the list view (src/lib.rs
`ColumnWidths`). -/
structure ColumnWidths where
  id : Nat
  updated : Nat
  created : Nat
  moved : Nat
  preview : Nat
  tags : Nat
  include_tags : Bool
  include_created : Bool
  include_moved : Bool
deriving DecidableEq

/-- Embedding of `ColumnWidths::total` (src/lib.rs). -/
def ColumnWidths.total (w : ColumnWidths) : Nat :=
  let separator_count := 2 + (if w.include_created then 1 else 0) +
    (if w.include_moved then 1 else 0) + (if w.include_tags then 1 else 0)
  let spaces := separator_count * 3
  let created := if w.include_created then w.created else 0
  let moved := if w.include_moved then w.moved else 0
  let tags := if w.include_tags then w.tags else 0
  w.id + created + w.updated + moved + w.preview + tags + spaces

/-- Embedding of the `reduce` closure of `shrink_widths` (src/lib.rs). -/
def reduceW (value minv : Nat) (excess : Int) : Nat × Int :=
  if excess ≤ 0 then (value, excess)
  else
    let reducible : Int := max ((value : Int) - (minv : Int)) 0
    let delta := min reducible excess
    (value - delta.toNat, excess - delta)

/-- One guarded shrink step: `if cond { reduce(...) }`. -/
def stepW (cond : Prop) [Decidable cond] (v m : Nat) (e : Int) : Nat × Int :=
  if cond then reduceW v m e else (v, e)

/-- Embedding of `shrink_widths` (src/lib.rs): remove slack column by
column in the fixed priority order until the excess is gone. -/
def shrink_widths (w : ColumnWidths) (term_width : Nat) (relative : Bool)
    (area : Area) (tz : Option Str) : ColumnWidths :=
  let min_preview := 4
  let min_tags := 4
  let min_updated := (updated_label relative tz).length
  let min_created := (time_label lCreated relative tz).length
  let min_moved := (moved_label area relative tz).length
  let min_id := lID.length
  let excess0 : Int := (w.total : Int) - (term_width : Int)
  let p1 := stepW (0 < excess0) w.preview min_preview excess0
  let p2 := stepW (0 < p1.2 ∧ w.include_moved = true) w.moved min_moved p1.2
  let p3 := stepW (0 < p2.2 ∧ w.include_created = true) w.created min_created p2.2
  let p4 := stepW (0 < p3.2 ∧ w.include_tags = true) w.tags min_tags p3.2
  let p5 := stepW (0 < p4.2) w.updated min_updated p4.2
  let p6 := stepW (0 < p5.2) w.id min_id p5.2
  { w with
    preview := p1.1, moved := p2.1, created := p3.1,
    tags := p4.1, updated := p5.1, id := p6.1 }

/-- The widths record with every column at the minimum `shrink_widths`
respects (include flags unchanged). -/
def minWidths (w : ColumnWidths) (relative : Bool) (area : Area)
    (tz : Option Str) : ColumnWidths :=
  { w with
    preview := 4, tags := 4,
    updated := (updated_label relative tz).length,
    created := (time_label lCreated relative tz).length,
    moved := (moved_label area relative tz).length,
    id := lID.length }

/-- The loop body of `format_tags_clamped` (src/lib.rs): `used` so far and
whether any part has been emitted yet. -/
def tagsGo (uc : Bool) (maxW : Nat) : List Str → Nat → Bool → Str × Nat
  | [], used, _ => ([], used)
  | tag :: rest, used, first =>
    let tag_len := tag.length
    let sep_len := if first then 0 else 1
    if used + sep_len + tag_len ≤ maxW then
      let r := tagsGo uc maxW rest (used + sep_len + tag_len) false
      ((if first then [] else [' ']) ++ format_tag_text tag uc ++ r.1, r.2)
    else
      let remaining := maxW - (used + sep_len)
      if 0 < remaining then
        let truncated := truncate_with_ellipsis tag remaining
        ((if first then [] else [' ']) ++ format_tag_text truncated uc,
          used + sep_len + truncated.length)
      else ([], used)

/-- Embedding of `format_tags_clamped` (src/lib.rs). -/
def format_tags_clamped (tags : List Str) (max_width : Nat) (uc : Bool) :
    Str × Nat :=
  if tags = [] ∨ max_width = 0 then ([], 0)
  else tagsGo uc max_width tags 0 true

/-- The column separator string. -/
def sep3 : Str := [' ', '|', ' ']

/-- An optional padded column followed by its separator (the
`if let Some((s, len)) = ...` blocks of `assemble_row`). -/
def optField (f : Option (Str × Nat)) (width : Nat) : Str :=
  match f with
  | some (c, l) => pad_field c width l ++ sep3
  | none => []

/-- The tags cell of `assemble_row`: padded tags or all spaces. -/
def tagsField (tg : Option (Str × Nat)) (width : Nat) : Str :=
  match tg with
  | some (t, l) => pad_field t width l
  | none => List.replicate width ' '

/-- Embedding of `assemble_row` (src/lib.rs). -/
def assemble_row (id_display : Str) (id_len : Nat)
    (created_display : Option (Str × Nat)) (updated_display : Str)
    (updated_len : Nat) (moved_display : Option (Str × Nat))
    (preview_display : Str) (preview_len : Nat) (tags : Option (Str × Nat))
    (w : ColumnWidths) : Str :=
  pad_field id_display w.id id_len ++ sep3 ++
  optField created_display w.created ++
  pad_field updated_display w.updated updated_len ++ sep3 ++
  optField moved_display w.moved ++
  pad_field preview_display w.preview preview_len ++
  (if w.include_tags then sep3 ++ tagsField tags w.tags else [])

/-- Embedding of `format_list_row` (src/lib.rs); the chrono-based
`format_timestamp_table`, `display_timestamp` and
`display_timestamp_moved` calls are abstracted as the function
parameters `fmtC`, `fmtU`, `fmtM`. -/
def format_list_row (id : Str) (created : Option Str) (updated : Str)
    (moved : Option Str) (preview_display : Str) (preview_len : Nat)
    (tags : Option (List Str)) (w : ColumnWidths) (uc : Bool)
    (fmtC fmtU fmtM : Str → Str) (is_header : Bool) : Str :=
  let id_plain := truncate_with_ellipsis id w.id
  let id_len := displayLen id_plain
  let id_display :=
    if is_header then format_header_label id_plain uc
    else format_id id_plain uc
  let createdP : Option (Str × Nat) × Nat :=
    if w.include_created then
      match created with
      | some c =>
        let created_source := if is_header then c else fmtC c
        let created_plain := truncate_with_ellipsis created_source w.created
        let len := displayLen created_plain
        let disp :=
          if is_header then format_header_label created_plain uc
          else format_timestamp created_plain uc
        (some (disp, len), len)
      | none => (some ([], 0), 0)
    else (none, 0)
  let updated_source := if is_header then updated else fmtU updated
  let updated_plain := truncate_with_ellipsis updated_source w.updated
  let updated_len := displayLen updated_plain
  let updated_display :=
    if is_header then format_header_label updated_plain uc
    else format_timestamp updated_plain uc
  let movedP : Option (Str × Nat) × Nat :=
    if w.include_moved then
      match moved with
      | some m =>
        let moved_source := if is_header then m else fmtM m
        let moved_plain := truncate_with_ellipsis moved_source w.moved
        let len := displayLen moved_plain
        let disp :=
          if is_header then format_header_label moved_plain uc
          else format_timestamp moved_plain uc
        (some (disp, len), len)
      | none => (some ([], 0), 0)
    else (none, 0)
  let preview_for_row :=
    if is_header then format_header_label preview_display uc
    else preview_display
  let tagsP :=
    if w.include_tags then format_tags_clamped (tags.getD []) w.tags uc
    else ([], 0)
  assemble_row id_display id_len createdP.1 updated_display updated_len
    movedP.1 preview_for_row preview_len
    (if w.include_tags then some tagsP else none) w

/-- One data row of the list view (src/lib.rs lines 317-357), with
`search = None` so `highlight_search` is the identity. -/
def renderNoteRow (w : ColumnWidths) (uc : Bool)
    (fmtC fmtU fmtM : Str → Str) (id : Str) (created : Option Str)
    (updated : Str) (moved : Option Str) (previewS : Str)
    (tags : List Str) : Str :=
  let preview_raw := truncate_with_ellipsis previewS w.preview
  let preview_len := displayLen preview_raw
  format_list_row id created updated moved preview_raw preview_len
    (if w.include_tags then some tags else none) w uc fmtC fmtU fmtM false

/-- The header row of the list view (src/lib.rs lines 282-314). -/
def renderHeaderRow (w : ColumnWidths) (uc relative : Bool)
    (tz : Option Str) (area : Area) (fmtC fmtU fmtM : Str → Str) : Str :=
  let header_preview := truncate_with_ellipsis lPreview w.preview
  let header_preview_len := displayLen header_preview
  let created_header :=
    if w.include_created then some (time_label lCreated relative tz)
    else none
  let moved_header :=
    if w.include_moved then
      match area with
      | Area.Trash => some (time_label lDeleted relative tz)
      | Area.Archive => some (time_label lArchived relative tz)
      | Area.Active => none
    else none
  format_list_row lID created_header (updated_label relative tz)
    moved_header header_preview header_preview_len
    (if w.include_tags then some [lTags] else none) w uc fmtC fmtU fmtM
    true

/-- A concrete widths record for exercising the layout bound. -/
def wit6 : ColumnWidths :=
  { id := 9, updated := 7, created := 7, moved := 7, preview := 30,
    tags := 10, include_tags := true, include_created := false,
    include_moved := false }

theorem dropKey_self (k r : Str) : dropKey k (k ++ r) = some r := by
  induction k with
  | nil => rfl
  | cons c ks ih => simp [dropKey, ih]

theorem trimLeft_space (t : Str) : trimLeft (' ' :: t) = trimLeft t := by
  simp [trimLeft, List.dropWhile_cons, isWS]

theorem rustTrim_space (t : Str) (h1 : trimLeft t = t) (h2 : trimRight t = t) :
    rustTrim (' ' :: t) = t := by
  unfold rustTrim
  rw [trimLeft_space, h1, h2]

theorem splitOnChar_not_mem (sep : Char) (l : Str) (h : sep ∉ l) :
    splitOnChar sep l = [l] := by
  induction l with
  | nil => rfl
  | cons c rest ih =>
    have hc : c ≠ sep := fun hc => h (hc ▸ List.mem_cons_self c rest)
    have hr : sep ∉ rest := fun hr => h (List.mem_cons_of_mem c hr)
    simp [splitOnChar, hc, ih hr]

theorem splitOnChar_append (sep : Char) (a b : Str) (h : sep ∉ a) :
    splitOnChar sep (a ++ sep :: b) = a :: splitOnChar sep b := by
  induction a with
  | nil => simp [splitOnChar]
  | cons c rest ih =>
    have hc : c ≠ sep := fun hc => h (hc ▸ List.mem_cons_self c rest)
    have hr : sep ∉ rest := fun hr => h (List.mem_cons_of_mem c hr)
    simp only [List.cons_append, splitOnChar, if_neg hc, List.append_eq, ih hr]

theorem noNlDash_of_nlFree (x : Str) (hx : '\n' ∉ x) :
    ∀ y : Str, noNlDash y → noNlDash (x ++ y) := by
  induction x with
  | nil => intro y hy; simpa using hy
  | cons a x ih =>
    intro y hy
    have ha : a ≠ '\n' := fun hc => hx (hc ▸ List.mem_cons_self a x)
    have hx2 : '\n' ∉ x := fun hc => hx (List.mem_cons_of_mem a hc)
    have htail : noNlDash (x ++ y) := ih hx2 y hy
    cases hxy : x ++ y with
    | nil =>
      rw [List.cons_append, hxy]
      trivial
    | cons b rest =>
      rw [List.cons_append, hxy]
      exact ⟨fun hab => ha hab.1, hxy ▸ htail⟩

theorem noNlDash_nl_cons (c : Char) (y : Str) (hc : c ≠ '-')
    (h : noNlDash (c :: y)) : noNlDash ('\n' :: c :: y) :=
  ⟨fun hab => hc hab.2, h⟩

theorem noNlDash_nlFree (x : Str) (hx : '\n' ∉ x) : noNlDash x := by
  have := noNlDash_of_nlFree x hx [] trivial
  simpa using this

theorem findSep_concat (x y : Str) (h : noNlDash x) :
    findSep (x ++ '\n' :: '-' :: '-' :: '-' :: '\n' :: y) = some x.length := by
  induction x with
  | nil => simp [findSep]
  | cons a x ih =>
    have htail : noNlDash x := by
      cases x with
      | nil => trivial
      | cons b rest => exact h.2
    have hx : findSep (x ++ '\n' :: '-' :: '-' :: '-' :: '\n' :: y) = some x.length :=
      ih htail
    have hpre : (a :: (x ++ '\n' :: '-' :: '-' :: '-' :: '\n' :: y)).take 5 ≠
        ['\n', '-', '-', '-', '\n'] := by
      by_cases ha : a = '\n'
      · subst ha
        cases x with
        | nil => simp
        | cons b rest =>
          have hb : b ≠ '-' := fun hb => h.1 ⟨rfl, hb⟩
          simp [hb]
      · simp [ha]
    rw [List.cons_append, findSep, if_neg hpre, hx]
    rfl

theorem stripCR_eq_self (l : Str) (h : l.reverse.head? ≠ some '\r') :
    stripCR l = l := by
  unfold stripCR
  split
  · rename_i rest heq
    exact absurd (by rw [heq]; rfl) h
  · rfl

theorem splitOnChar_joinNl (ls : List Str) (hne : ls ≠ [])
    (h : ∀ l ∈ ls, '\n' ∉ l) (y : Str) :
    splitOnChar '\n' (joinNl ls ++ '\n' :: y) = ls ++ splitOnChar '\n' y := by
  induction ls with
  | nil => exact absurd rfl hne
  | cons l rest ih =>
    cases rest with
    | nil =>
      simpa [joinNl] using
        splitOnChar_append '\n' l y (h l (by simp))
    | cons l2 rest2 =>
      have hstep := splitOnChar_append '\n'
        l (joinNl (l2 :: rest2) ++ '\n' :: y) (h l (by simp))
      have ihh := ih (by simp) (fun x hx => h x (List.mem_cons_of_mem l hx))
      calc splitOnChar '\n' (joinNl (l :: l2 :: rest2) ++ '\n' :: y)
          = splitOnChar '\n' (l ++ '\n' :: (joinNl (l2 :: rest2) ++ '\n' :: y)) := by
            simp [joinNl]
        _ = l :: splitOnChar '\n' (joinNl (l2 :: rest2) ++ '\n' :: y) := hstep
        _ = l :: ((l2 :: rest2) ++ splitOnChar '\n' y) := by rw [ihh]
        _ = (l :: l2 :: rest2) ++ splitOnChar '\n' y := rfl

theorem noNlDash_joinNl (ls : List Str)
    (h : ∀ l ∈ ls, '\n' ∉ l ∧ l.head? ≠ some '-' ∧ l ≠ []) :
    noNlDash (joinNl ls) := by
  induction ls with
  | nil => trivial
  | cons l rest ih =>
    cases rest with
    | nil =>
      exact noNlDash_nlFree l (h l (by simp)).1
    | cons l2 rest2 =>
      have hl := h l (by simp)
      have hl2 := h l2 (by simp)
      have htail : noNlDash (joinNl (l2 :: rest2)) :=
        ih (fun x hx => h x (List.mem_cons_of_mem l hx))
      cases hl2c : l2 with
      | nil => exact absurd hl2c hl2.2.2
      | cons c l2r =>
        have hc : c ≠ '-' := by
          intro hc
          exact hl2.2.1 (by rw [hl2c, hc]; rfl)
        have htail2 : noNlDash (joinNl ((c :: l2r) :: rest2)) := hl2c ▸ htail
        have hj : joinNl (l :: (c :: l2r) :: rest2)
            = l ++ '\n' :: joinNl ((c :: l2r) :: rest2) := by
          simp [joinNl]
        rw [hj]
        apply noNlDash_of_nlFree l hl.1
        have hheadshape : ∃ r, joinNl ((c :: l2r) :: rest2) = c :: r := by
          cases rest2 with
          | nil => exact ⟨l2r, rfl⟩
          | cons l3 rest3 => exact ⟨l2r ++ '\n' :: joinNl (l3 :: rest3), rfl⟩
        obtain ⟨r, hr⟩ := hheadshape
        rw [hr]
        exact noNlDash_nl_cons c r hc (hr ▸ htail2)

theorem linesR_concat (ls : List Str) (hne : ls ≠ [])
    (h : ∀ l ∈ ls, '\n' ∉ l) :
    linesR (joinNl ls ++ '\n' :: '-' :: '-' :: '-' :: '\n' :: []) =
      (ls ++ [['-', '-', '-']]).map stripCR := by
  have hsplit : splitOnChar '\n' (joinNl ls ++ '\n' :: '-' :: '-' :: '-' :: '\n' :: []) =
      ls ++ [['-', '-', '-'], []] := by
    rw [splitOnChar_joinNl ls hne h]
    have : splitOnChar '\n' ('-' :: '-' :: '-' :: '\n' :: []) =
        [['-', '-', '-'], []] := by decide
    rw [this]
  have hlast : (ls ++ [['-', '-', '-'], []]).getLast? = some [] := by
    have he : ls ++ [['-', '-', '-'], []] = (ls ++ [['-', '-', '-']]) ++ [[]] := by simp
    rw [he, List.getLast?_concat]
  have hdrop : (ls ++ [['-', '-', '-'], []]).dropLast = ls ++ [['-', '-', '-']] := by
    have he : ls ++ [['-', '-', '-'], []] = (ls ++ [['-', '-', '-']]) ++ [[]] := by simp
    rw [he, List.dropLast_concat]
  unfold linesR
  rw [hsplit]
  simp only [hlast, hdrop, if_pos]

theorem dropWhileLen (p : Char → Bool) (l : Str) :
    (l.dropWhile p).length ≤ l.length := by
  induction l with
  | nil => simp
  | cons c rest ih =>
    rw [List.dropWhile_cons]
    by_cases h : p c
    · rw [if_pos h]; exact le_trans ih (by simp)
    · rw [if_neg h]

theorem trimRight_last_not_ws (v : Str) (h : trimRight v = v) (c : Char)
    (hc : v.reverse.head? = some c) : isWS c = false := by
  unfold trimRight at h
  have hrev : v.reverse.dropWhile isWS = v.reverse := by
    have := congrArg List.reverse h
    rwa [List.reverse_reverse] at this
  cases hv : v.reverse with
  | nil => rw [hv] at hc; exact absurd hc (by simp)
  | cons d rest =>
    rw [hv] at hc hrev
    have hd : d = c := by
      simpa using hc
    subst hd
    by_contra hws
    have hws2 : isWS d = true := by
      cases hq : isWS d
      · exact absurd hq hws
      · rfl
    rw [List.dropWhile_cons, hws2] at hrev
    simp only [if_pos rfl] at hrev
    have hlen := congrArg List.length hrev
    have hle := dropWhileLen isWS rest
    simp at hlen
    omega

theorem stripCR_keyline (k : Str) (v : Str)
    (hkl : k.reverse.head? ≠ some '\r')
    (htrim : trimRight v = v) :
    stripCR (k ++ v) = k ++ v := by
  apply stripCR_eq_self
  intro hcr
  rw [List.reverse_append] at hcr
  cases hv : v.reverse with
  | nil =>
    rw [hv] at hcr
    simp only [List.nil_append] at hcr
    exact hkl hcr
  | cons d rest =>
    rw [hv] at hcr
    have hd : d = '\r' := by simpa using hcr
    have := trimRight_last_not_ws v htrim d (by rw [hv]; rfl)
    rw [hd] at this
    simp [isWS] at this

theorem rustTrim_self (l : Str) (h1 : trimLeft l = l) (h2 : trimRight l = l) :
    rustTrim l = l := by
  unfold rustTrim
  rw [h1, h2]

theorem normalize_tag_fixed (t : Str) (ht : tagOk t) : normalize_tag t = t := by
  obtain ⟨hne, hhead, hl, hr, _⟩ := ht
  unfold normalize_tag
  simp [rustTrim_self t hl hr, if_neg hne, hhead]

theorem headerStep_title (acc : HeaderAcc) (t : Str) :
    headerStep acc (kTitle ++ ' ' :: t) = { acc with title := rustTrim (' ' :: t) } := by
  simp [headerStep, kTitle, dropKey]

theorem headerStep_created (acc : HeaderAcc) (t : Str) :
    headerStep acc (kCreated ++ ' ' :: t) = { acc with created := rustTrim (' ' :: t) } := by
  simp [headerStep, kTitle, kCreated, dropKey]

theorem headerStep_updated (acc : HeaderAcc) (t : Str) :
    headerStep acc (kUpdated ++ ' ' :: t) = { acc with updated := rustTrim (' ' :: t) } := by
  simp [headerStep, kTitle, kCreated, kUpdated, dropKey]

theorem headerStep_deleted (acc : HeaderAcc) (t : Str) :
    headerStep acc (kDeleted ++ ' ' :: t) =
      { acc with deleted_at := some (rustTrim (' ' :: t)) } := by
  simp [headerStep, kTitle, kCreated, kUpdated, kDeleted, dropKey]

theorem headerStep_archived (acc : HeaderAcc) (t : Str) :
    headerStep acc (kArchived ++ ' ' :: t) =
      { acc with archived_at := some (rustTrim (' ' :: t)) } := by
  simp [headerStep, kTitle, kCreated, kUpdated, kDeleted, kArchived, dropKey]

theorem headerStep_tags (acc : HeaderAcc) (t : Str) :
    headerStep acc (kTags ++ t) =
      { acc with
        tags := ((splitOnChar ',' t).map (fun x => normalize_tag (rustTrim x))).filter
          (fun x => ¬x = []) } := by
  simp [headerStep, kTitle, kCreated, kUpdated, kDeleted, kArchived, kTags, dropKey]

theorem headerStep_dashes (acc : HeaderAcc) :
    headerStep acc ['-', '-', '-'] = acc := by
  simp [headerStep, kTitle, kCreated, kUpdated, kDeleted, kArchived, kTags, dropKey]

theorem map_stripCR_id (L : List Str) (h : ∀ l ∈ L, stripCR l = l) :
    L.map stripCR = L := by
  induction L with
  | nil => rfl
  | cons l rest ih =>
    rw [List.map_cons, h l (by simp), ih (fun x hx => h x (List.mem_cons_of_mem l hx))]

theorem tagsParse (ts : List Str) (h : ∀ t ∈ ts, tagOk t) (hne : ts ≠ []) :
    ((splitOnChar ',' (' ' :: joinCommaSpace ts)).map
        (fun x => normalize_tag (rustTrim x))).filter (fun x => ¬x = []) = ts := by
  induction ts with
  | nil => exact absurd rfl hne
  | cons t rest ih =>
    have ht := h t (by simp)
    have hcomma : ',' ∉ (' ' :: t) := by
      intro hmem
      rcases List.mem_cons.mp hmem with hsp | hmem2
      · exact absurd hsp (by decide)
      · exact (ht.2.2.2.2 ',' hmem2).2 rfl
    cases rest with
    | nil =>
      rw [show joinCommaSpace [t] = t from rfl]
      rw [splitOnChar_not_mem ',' (' ' :: t) hcomma]
      simp only [List.map_cons, List.map_nil,
        rustTrim_space t ht.2.2.1 ht.2.2.2.1, normalize_tag_fixed t ht]
      simp [List.filter, ht.1]
    | cons t2 rest2 =>
      have hj : joinCommaSpace (t :: t2 :: rest2) =
          t ++ ',' :: ' ' :: joinCommaSpace (t2 :: rest2) := rfl
      rw [hj]
      have hshape : ' ' :: (t ++ ',' :: ' ' :: joinCommaSpace (t2 :: rest2)) =
          (' ' :: t) ++ ',' :: (' ' :: joinCommaSpace (t2 :: rest2)) := by simp
      rw [hshape, splitOnChar_append ',' (' ' :: t) _ hcomma]
      have ihh := ih (fun x hx => h x (List.mem_cons_of_mem t hx)) (by simp)
      simp only [List.map_cons,
        rustTrim_space t ht.2.2.1 ht.2.2.2.1, normalize_tag_fixed t ht]
      rw [List.filter_cons]
      simp only [ht.1, ihh]
      simp [ht.1]

theorem joinCommaSpace_ne_nil (ts : List Str) (hne : ts ≠ [])
    (h : ∀ t ∈ ts, tagOk t) : joinCommaSpace ts ≠ [] := by
  cases ts with
  | nil => exact absurd rfl hne
  | cons t rest =>
    cases rest with
    | nil => exact (h t (by simp)).1
    | cons t2 rest2 =>
      intro hc
      have := congrArg List.length hc
      simp [joinCommaSpace] at this

theorem joinCommaSpace_nlFree (ts : List Str) (h : ∀ t ∈ ts, tagOk t) :
    '\n' ∉ joinCommaSpace ts := by
  induction ts with
  | nil => simp [joinCommaSpace]
  | cons t rest ih =>
    have ht := h t (by simp)
    cases rest with
    | nil =>
      intro hmem
      exact (ht.2.2.2.2 '\n' hmem).1 rfl
    | cons t2 rest2 =>
      intro hmem
      rw [show joinCommaSpace (t :: t2 :: rest2) =
        t ++ ',' :: ' ' :: joinCommaSpace (t2 :: rest2) from rfl] at hmem
      rcases List.mem_append.mp hmem with hmem1 | hmem2
      · exact (ht.2.2.2.2 '\n' hmem1).1 rfl
      · rcases List.mem_cons.mp hmem2 with hcm | hmem3
        · exact absurd hcm (by decide)
        · rcases List.mem_cons.mp hmem3 with hcm | hmem4
          · exact absurd hcm (by decide)
          · exact ih (fun x hx => h x (List.mem_cons_of_mem t hx)) hmem4

theorem joinCommaSpace_last_not_cr (ts : List Str) (hne : ts ≠ [])
    (h : ∀ t ∈ ts, tagOk t) :
    (joinCommaSpace ts).reverse.head? ≠ some '\r' := by
  induction ts with
  | nil => exact absurd rfl hne
  | cons t rest ih =>
    have ht := h t (by simp)
    cases rest with
    | nil =>
      intro hcr
      have hc := trimRight_last_not_ws t ht.2.2.2.1 '\r' (by
        rw [show joinCommaSpace [t] = t from rfl] at hcr
        exact hcr)
      simp [isWS] at hc
    | cons t2 rest2 =>
      have hj : joinCommaSpace (t :: t2 :: rest2) =
          t ++ ',' :: ' ' :: joinCommaSpace (t2 :: rest2) := rfl
      rw [hj]
      have hrest := ih (by simp) (fun x hx => h x (List.mem_cons_of_mem t hx))
      have hjn : joinCommaSpace (t2 :: rest2) ≠ [] :=
        joinCommaSpace_ne_nil (t2 :: rest2) (by simp)
          (fun x hx => h x (List.mem_cons_of_mem t hx))
      intro hcr
      rw [List.reverse_append] at hcr
      have hrevshape : (',' :: ' ' :: joinCommaSpace (t2 :: rest2)).reverse =
          (joinCommaSpace (t2 :: rest2)).reverse ++ [' ', ','] := by
        simp
      rw [hrevshape] at hcr
      cases hj2 : (joinCommaSpace (t2 :: rest2)).reverse with
      | nil =>
        have hjnil : joinCommaSpace (t2 :: rest2) = [] := by
          have := congrArg List.reverse hj2
          simpa using this
        exact hjn hjnil
      | cons e rest4 =>
        rw [hj2] at hcr
        have he : e = '\r' := by simpa using hcr
        exact hrest (by rw [hj2]; simp [he])

theorem tags_line_shape (ts : List Str) :
    (if ts = [] then kTags else kTags ++ ' ' :: joinCommaSpace ts) =
      kTags ++ tagsVal ts := by
  by_cases hts : ts = []
  · simp [hts, tagsVal]
  · simp [hts, tagsVal]

theorem tagsRead (ts : List Str) (h : ∀ t ∈ ts, tagOk t) :
    ((splitOnChar ',' (tagsVal ts)).map
        (fun x => normalize_tag (rustTrim x))).filter (fun x => ¬x = []) = ts := by
  by_cases hts : ts = []
  · subst hts
    simp [tagsVal, splitOnChar, rustTrim, trimLeft, trimRight, normalize_tag]
  · rw [show tagsVal ts = ' ' :: joinCommaSpace ts from if_neg hts]
    exact tagsParse ts h hts

theorem keyline_props (k0 v : Str) (hk0 : k0 ≠ []) (hhead : k0.head? ≠ some '-')
    (hknl : '\n' ∉ k0) (hv1 : ∀ c ∈ v, c ≠ '\n') (hvr : trimRight v = v) :
    '\n' ∉ (k0 ++ ' ' :: v) ∧ (k0 ++ ' ' :: v).head? ≠ some '-' ∧
      (k0 ++ ' ' :: v) ≠ [] ∧ stripCR (k0 ++ ' ' :: v) = k0 ++ ' ' :: v := by
  refine ⟨?_, ?_, ?_, ?_⟩
  · intro hmem
    rcases List.mem_append.mp hmem with h1 | h2
    · exact hknl h1
    · rcases List.mem_cons.mp h2 with hsp | h3
      · exact absurd hsp (by decide)
      · exact hv1 '\n' h3 rfl
  · intro hcontra
    cases k0 with
    | nil => exact hk0 rfl
    | cons a rest =>
      apply hhead
      simpa using hcontra
  · simp
  · have hsh : k0 ++ ' ' :: v = (k0 ++ [' ']) ++ v := by simp
    rw [hsh]
    apply stripCR_keyline
    · simp
    · exact hvr

theorem tagsline_props (ts : List Str) (h : ∀ t ∈ ts, tagOk t) :
    '\n' ∉ (kTags ++ tagsVal ts) ∧ (kTags ++ tagsVal ts).head? ≠ some '-' ∧
      (kTags ++ tagsVal ts) ≠ [] ∧
      stripCR (kTags ++ tagsVal ts) = kTags ++ tagsVal ts := by
  by_cases hts : ts = []
  · subst hts
    refine ⟨by decide, by decide, by decide, by decide⟩
  · rw [show tagsVal ts = ' ' :: joinCommaSpace ts from if_neg hts]
    have hjn : joinCommaSpace ts ≠ [] := joinCommaSpace_ne_nil ts hts h
    refine ⟨?_, ?_, ?_, ?_⟩
    · intro hmem
      rcases List.mem_append.mp hmem with h1 | h2
      · revert h1; decide
      · rcases List.mem_cons.mp h2 with hsp | h3
        · exact absurd hsp (by decide)
        · exact joinCommaSpace_nlFree ts h h3
    · simp [kTags]
    · simp
    · apply stripCR_eq_self
      rw [List.reverse_append]
      have hrevshape : (' ' :: joinCommaSpace ts).reverse =
          (joinCommaSpace ts).reverse ++ [' '] := by simp
      rw [hrevshape]
      cases hj2 : (joinCommaSpace ts).reverse with
      | nil =>
        have hjnil : joinCommaSpace ts = [] := by
          have := congrArg List.reverse hj2
          simpa using this
        exact absurd hjnil hjn
      | cons e rest4 =>
        intro hcontra
        have he : e = '\r' := by simpa using hcontra
        exact joinCommaSpace_last_not_cr ts hts h (by rw [hj2]; simp [he])

theorem parse_note_concat (ls : List Str) (B : Str) (hne : ls ≠ [])
    (hprops : ∀ l ∈ ls, '\n' ∉ l ∧ l.head? ≠ some '-' ∧ l ≠ [] ∧ stripCR l = l)
    (stem : Str) (size : Nat) :
    parse_note (joinNl ls ++ '\n' :: '-' :: '-' :: '-' :: '\n' :: B) stem size =
      { id := stem
        title := ((ls ++ [['-', '-', '-']]).foldl headerStep emptyAcc).title
        created := ((ls ++ [['-', '-', '-']]).foldl headerStep emptyAcc).created
        updated := ((ls ++ [['-', '-', '-']]).foldl headerStep emptyAcc).updated
        deleted_at := ((ls ++ [['-', '-', '-']]).foldl headerStep emptyAcc).deleted_at
        archived_at := ((ls ++ [['-', '-', '-']]).foldl headerStep emptyAcc).archived_at
        body := B
        tags := ((ls ++ [['-', '-', '-']]).foldl headerStep emptyAcc).tags
        size_bytes := size } := by
  have hnl : noNlDash (joinNl ls) :=
    noNlDash_joinNl ls (fun l hl => ⟨(hprops l hl).1, (hprops l hl).2.1, (hprops l hl).2.2.1⟩)
  have hfind := findSep_concat (joinNl ls) B hnl
  have hraw2 : joinNl ls ++ '\n' :: '-' :: '-' :: '-' :: '\n' :: B =
      (joinNl ls ++ ['\n', '-', '-', '-', '\n']) ++ B := by simp
  have htake : (joinNl ls ++ '\n' :: '-' :: '-' :: '-' :: '\n' :: B).take
      ((joinNl ls).length + 5) = joinNl ls ++ ['\n', '-', '-', '-', '\n'] := by
    rw [hraw2]
    exact List.take_left' (by simp)
  have hdrop : (joinNl ls ++ '\n' :: '-' :: '-' :: '-' :: '\n' :: B).drop
      ((joinNl ls).length + 5) = B := by
    rw [hraw2]
    exact List.drop_left' (by simp)
  have hlines : linesR (joinNl ls ++ ['\n', '-', '-', '-', '\n']) =
      ls ++ [['-', '-', '-']] := by
    have hl1 := linesR_concat ls hne (fun l hl => (hprops l hl).1)
    have hl2 : (ls ++ [['-', '-', '-']]).map stripCR = ls ++ [['-', '-', '-']] := by
      apply map_stripCR_id
      intro l hl
      rcases List.mem_append.mp hl with h1 | h2
      · exact (hprops l h1).2.2.2
      · rcases List.mem_cons.mp h2 with hd | hf
        · rw [hd]; decide
        · simp at hf
    rw [show joinNl ls ++ ['\n', '-', '-', '-', '\n'] =
      joinNl ls ++ '\n' :: '-' :: '-' :: '-' :: '\n' :: [] from rfl]
    rw [hl1, hl2]
  unfold parse_note
  rw [hfind]
  simp only [htake, hdrop, hlines]

/-- C1: decoding the bytes produced by encoding a valid Note yields the
same Note except that the body is normalized to end in exactly one
trailing newline and the derived id/size fields come from the file. -/
theorem parse_write_roundtrip (n : Note) (sz : Nat) (h : validNote n) :
    parse_note (write_note_content n) n.id sz =
      { n with body := trimEndNl n.body ++ ['\n'], size_bytes := sz } := by
  obtain ⟨nid, ntitle, ncreated, nupdated, ndel, narc, nbody, ntags, nszb⟩ := n
  obtain ⟨hT, hC, hU, hD, hA, hTags⟩ := h
  have pT := keyline_props kTitle ntitle (by decide) (by decide) (by decide) hT.1 hT.2.2
  have pC := keyline_props kCreated ncreated (by decide) (by decide) (by decide) hC.1 hC.2.2
  have pU := keyline_props kUpdated nupdated (by decide) (by decide) (by decide) hU.1 hU.2.2
  have pG := tagsline_props ntags hTags
  rcases ndel with _ | d
  · rcases narc with _ | a
    · -- no stamps
      have hshape : write_note_content
          ⟨nid, ntitle, ncreated, nupdated, none, none, nbody, ntags, nszb⟩ =
          joinNl [kTitle ++ ' ' :: ntitle, kCreated ++ ' ' :: ncreated,
            kUpdated ++ ' ' :: nupdated, kTags ++ tagsVal ntags] ++
            '\n' :: '-' :: '-' :: '-' :: '\n' :: (trimEndNl nbody ++ ['\n']) := by
        simp [write_note_content, joinNl, tags_line_shape, List.append_assoc]
      rw [hshape, parse_note_concat _ _ (by simp) ?props]
      case props =>
        intro l hl
        simp only [List.mem_cons, List.not_mem_nil, or_false] at hl
        rcases hl with h1 | h2 | h3 | h4
        · exact h1 ▸ pT
        · exact h2 ▸ pC
        · exact h3 ▸ pU
        · exact h4 ▸ pG
      have hfold : ([kTitle ++ ' ' :: ntitle, kCreated ++ ' ' :: ncreated,
          kUpdated ++ ' ' :: nupdated, kTags ++ tagsVal ntags] ++
            [['-', '-', '-']]).foldl headerStep emptyAcc =
          ⟨ntitle, ncreated, nupdated, none, none, ntags⟩ := by
        simp only [List.cons_append, List.nil_append, List.foldl_cons, List.foldl_nil]
        rw [headerStep_title, headerStep_created, headerStep_updated,
          headerStep_tags, headerStep_dashes]
        rw [rustTrim_space ntitle hT.2.1 hT.2.2,
          rustTrim_space ncreated hC.2.1 hC.2.2,
          rustTrim_space nupdated hU.2.1 hU.2.2,
          tagsRead ntags hTags]
        rfl
      rw [hfold]
    · -- archived only
      have hAd : fieldOk a := hA
      have pA := keyline_props kArchived a (by decide) (by decide) (by decide) hAd.1 hAd.2.2
      have hshape : write_note_content
          ⟨nid, ntitle, ncreated, nupdated, none, some a, nbody, ntags, nszb⟩ =
          joinNl [kTitle ++ ' ' :: ntitle, kCreated ++ ' ' :: ncreated,
            kUpdated ++ ' ' :: nupdated, kArchived ++ ' ' :: a, kTags ++ tagsVal ntags] ++
            '\n' :: '-' :: '-' :: '-' :: '\n' :: (trimEndNl nbody ++ ['\n']) := by
        simp [write_note_content, joinNl, tags_line_shape, List.append_assoc]
      rw [hshape, parse_note_concat _ _ (by simp) ?propsA]
      case propsA =>
        intro l hl
        simp only [List.mem_cons, List.not_mem_nil, or_false] at hl
        rcases hl with h1 | h2 | h3 | h4 | h5
        · exact h1 ▸ pT
        · exact h2 ▸ pC
        · exact h3 ▸ pU
        · exact h4 ▸ pA
        · exact h5 ▸ pG
      have hfold : ([kTitle ++ ' ' :: ntitle, kCreated ++ ' ' :: ncreated,
          kUpdated ++ ' ' :: nupdated, kArchived ++ ' ' :: a, kTags ++ tagsVal ntags] ++
            [['-', '-', '-']]).foldl headerStep emptyAcc =
          ⟨ntitle, ncreated, nupdated, none, some a, ntags⟩ := by
        simp only [List.cons_append, List.nil_append, List.foldl_cons, List.foldl_nil]
        rw [headerStep_title, headerStep_created, headerStep_updated,
          headerStep_archived, headerStep_tags, headerStep_dashes]
        rw [rustTrim_space ntitle hT.2.1 hT.2.2,
          rustTrim_space ncreated hC.2.1 hC.2.2,
          rustTrim_space nupdated hU.2.1 hU.2.2,
          rustTrim_space a hAd.2.1 hAd.2.2,
          tagsRead ntags hTags]
        rfl
      rw [hfold]
  · rcases narc with _ | a
    · -- deleted only
      have hDd : fieldOk d := hD
      have pD := keyline_props kDeleted d (by decide) (by decide) (by decide) hDd.1 hDd.2.2
      have hshape : write_note_content
          ⟨nid, ntitle, ncreated, nupdated, some d, none, nbody, ntags, nszb⟩ =
          joinNl [kTitle ++ ' ' :: ntitle, kCreated ++ ' ' :: ncreated,
            kUpdated ++ ' ' :: nupdated, kDeleted ++ ' ' :: d, kTags ++ tagsVal ntags] ++
            '\n' :: '-' :: '-' :: '-' :: '\n' :: (trimEndNl nbody ++ ['\n']) := by
        simp [write_note_content, joinNl, tags_line_shape, List.append_assoc]
      rw [hshape, parse_note_concat _ _ (by simp) ?propsD]
      case propsD =>
        intro l hl
        simp only [List.mem_cons, List.not_mem_nil, or_false] at hl
        rcases hl with h1 | h2 | h3 | h4 | h5
        · exact h1 ▸ pT
        · exact h2 ▸ pC
        · exact h3 ▸ pU
        · exact h4 ▸ pD
        · exact h5 ▸ pG
      have hfold : ([kTitle ++ ' ' :: ntitle, kCreated ++ ' ' :: ncreated,
          kUpdated ++ ' ' :: nupdated, kDeleted ++ ' ' :: d, kTags ++ tagsVal ntags] ++
            [['-', '-', '-']]).foldl headerStep emptyAcc =
          ⟨ntitle, ncreated, nupdated, some d, none, ntags⟩ := by
        simp only [List.cons_append, List.nil_append, List.foldl_cons, List.foldl_nil]
        rw [headerStep_title, headerStep_created, headerStep_updated,
          headerStep_deleted, headerStep_tags, headerStep_dashes]
        rw [rustTrim_space ntitle hT.2.1 hT.2.2,
          rustTrim_space ncreated hC.2.1 hC.2.2,
          rustTrim_space nupdated hU.2.1 hU.2.2,
          rustTrim_space d hDd.2.1 hDd.2.2,
          tagsRead ntags hTags]
        rfl
      rw [hfold]
    · -- both stamps
      have hDd : fieldOk d := hD
      have hAd : fieldOk a := hA
      have pD := keyline_props kDeleted d (by decide) (by decide) (by decide) hDd.1 hDd.2.2
      have pA := keyline_props kArchived a (by decide) (by decide) (by decide) hAd.1 hAd.2.2
      have hshape : write_note_content
          ⟨nid, ntitle, ncreated, nupdated, some d, some a, nbody, ntags, nszb⟩ =
          joinNl [kTitle ++ ' ' :: ntitle, kCreated ++ ' ' :: ncreated,
            kUpdated ++ ' ' :: nupdated, kDeleted ++ ' ' :: d, kArchived ++ ' ' :: a,
            kTags ++ tagsVal ntags] ++
            '\n' :: '-' :: '-' :: '-' :: '\n' :: (trimEndNl nbody ++ ['\n']) := by
        simp [write_note_content, joinNl, tags_line_shape, List.append_assoc]
      rw [hshape, parse_note_concat _ _ (by simp) ?propsB]
      case propsB =>
        intro l hl
        simp only [List.mem_cons, List.not_mem_nil, or_false] at hl
        rcases hl with h1 | h2 | h3 | h4 | h5 | h6
        · exact h1 ▸ pT
        · exact h2 ▸ pC
        · exact h3 ▸ pU
        · exact h4 ▸ pD
        · exact h5 ▸ pA
        · exact h6 ▸ pG
      have hfold : ([kTitle ++ ' ' :: ntitle, kCreated ++ ' ' :: ncreated,
          kUpdated ++ ' ' :: nupdated, kDeleted ++ ' ' :: d, kArchived ++ ' ' :: a,
          kTags ++ tagsVal ntags] ++
            [['-', '-', '-']]).foldl headerStep emptyAcc =
          ⟨ntitle, ncreated, nupdated, some d, some a, ntags⟩ := by
        simp only [List.cons_append, List.nil_append, List.foldl_cons, List.foldl_nil]
        rw [headerStep_title, headerStep_created, headerStep_updated,
          headerStep_deleted, headerStep_archived, headerStep_tags, headerStep_dashes]
        rw [rustTrim_space ntitle hT.2.1 hT.2.2,
          rustTrim_space ncreated hC.2.1 hC.2.2,
          rustTrim_space nupdated hU.2.1 hU.2.2,
          rustTrim_space d hDd.2.1 hDd.2.2,
          rustTrim_space a hAd.2.1 hAd.2.2,
          tagsRead ntags hTags]
      rw [hfold]

/-- Witness for the round-trip law at a concrete valid note. -/
theorem parse_write_roundtrip_witness :
    validNote
      { id := ['a'], title := ['T', 'i'], created := ['0', '1'], updated := ['0', '2'],
        deleted_at := some ['0', '3'], archived_at := none, body := ['h', 'i', '\n', '\n'],
        tags := [['#', 'w'], ['#', 'x']], size_bytes := 0 } ∧
    parse_note
        (write_note_content
          { id := ['a'], title := ['T', 'i'], created := ['0', '1'], updated := ['0', '2'],
            deleted_at := some ['0', '3'], archived_at := none, body := ['h', 'i', '\n', '\n'],
            tags := [['#', 'w'], ['#', 'x']], size_bytes := 0 })
        ['a'] 9 =
      { id := ['a'], title := ['T', 'i'], created := ['0', '1'], updated := ['0', '2'],
        deleted_at := some ['0', '3'], archived_at := none, body := ['h', 'i', '\n'],
        tags := [['#', 'w'], ['#', 'x']], size_bytes := 9 } :=
  ⟨by decide,
    parse_write_roundtrip
      { id := ['a'], title := ['T', 'i'], created := ['0', '1'], updated := ['0', '2'],
        deleted_at := some ['0', '3'], archived_at := none, body := ['h', 'i', '\n', '\n'],
        tags := [['#', 'w'], ['#', 'x']], size_bytes := 0 } 9 (by decide)⟩

theorem lsDigitsF_zero (fuel : Nat) : lsDigitsF fuel 0 = [] := by
  cases fuel with
  | zero => rfl
  | succ f => simp [lsDigitsF]

theorem lsDigitsF_congr : ∀ (f1 f2 n : Nat), n ≤ f1 → n ≤ f2 →
    lsDigitsF f1 n = lsDigitsF f2 n := by
  intro f1
  induction f1 with
  | zero =>
    intro f2 n h1 h2
    have hn : n = 0 := by omega
    subst hn
    rw [lsDigitsF_zero, lsDigitsF_zero]
  | succ f1 ih =>
    intro f2 n h1 h2
    by_cases h0 : n = 0
    · subst h0
      rw [lsDigitsF_zero, lsDigitsF_zero]
    · cases f2 with
      | zero => omega
      | succ f2p =>
        rw [lsDigitsF, lsDigitsF, if_neg h0, if_neg h0]
        have hdec : n / 62 < n := Nat.div_lt_self (Nat.pos_of_ne_zero h0) (by norm_num)
        exact congrArg _ (ih f2p (n / 62) (by omega) (by omega))

theorem lsDigits_eq (n : Nat) :
    lsDigits n = if n = 0 then [] else base62Char (n % 62) :: lsDigits (n / 62) := by
  by_cases h0 : n = 0
  · subst h0
    rw [if_pos rfl]
    rfl
  · rw [if_neg h0]
    unfold lsDigits
    cases hn : n with
    | zero => exact absurd hn h0
    | succ m =>
      rw [lsDigitsF, if_neg (by omega)]
      have hdec : (m + 1) / 62 < m + 1 := Nat.div_lt_self (by omega) (by norm_num)
      exact congrArg _ (lsDigitsF_congr m ((m + 1) / 62) ((m + 1) / 62) (by omega) (le_refl _))

theorem genLoop_succ (clock : Nat → Int) (exF : Str → Bool) (fuel : Nat)
    (reserved : List Str) (st : IdState) (k : Nat) :
    genLoop clock exF (fuel + 1) reserved st k =
      (let ts := if clock k ≤ st.last_ts then st.last_ts + 1 else clock k
       let id := encode_base62_width ts.toNat ID_TS_WIDTH
       if id ∉ reserved ∧ exF id = false then some (id, ⟨ts, 0⟩)
       else genLoop clock exF fuel (id :: reserved) ⟨ts, satSucc 0⟩ (k + 1)) := by
  have hts : (if clock k ≤ st.last_ts then st.last_ts + 1 else clock k) ≠ st.last_ts := by
    by_cases h : clock k ≤ st.last_ts
    · simp only [if_pos h]; omega
    · simp only [if_neg h]; omega
  simp [genLoop, if_neg hts]

theorem genLoop_ts_gt (clock : Nat → Int) (exF : Str → Bool) :
    ∀ (fuel : Nat) (reserved : List Str) (st : IdState) (k : Nat) (r : Str × IdState),
      genLoop clock exF fuel reserved st k = some r →
      st.last_ts < r.2.last_ts ∧ r.2.counter = 0 ∧
        r.1 = encode_base62_width r.2.last_ts.toNat ID_TS_WIDTH := by
  intro fuel
  induction fuel with
  | zero => intro reserved st k r hr; exact absurd hr (by simp [genLoop])
  | succ fuel ih =>
    intro reserved st k r hr
    rw [genLoop_succ] at hr
    simp only at hr
    set ts := if clock k ≤ st.last_ts then st.last_ts + 1 else clock k with hts
    have htgt : st.last_ts < ts := by
      rw [hts]
      by_cases h : clock k ≤ st.last_ts
      · simp only [if_pos h]; omega
      · simp only [if_neg h]; omega
    by_cases hfresh :
        encode_base62_width ts.toNat ID_TS_WIDTH ∉ reserved ∧
          exF (encode_base62_width ts.toNat ID_TS_WIDTH) = false
    · rw [if_pos hfresh] at hr
      obtain rfl : r = (encode_base62_width ts.toNat ID_TS_WIDTH, ⟨ts, 0⟩) := by
        cases hr; rfl
      exact ⟨htgt, rfl, rfl⟩
    · rw [if_neg hfresh] at hr
      have := ih _ _ _ _ hr
      exact ⟨lt_trans htgt this.1, this.2.1, this.2.2⟩

theorem lsDigits_len : ∀ (w n : Nat), n < 62 ^ w → (lsDigits n).length ≤ w := by
  intro w
  induction w with
  | zero =>
    intro n hn
    interval_cases n
    rw [lsDigits_eq]
    simp
  | succ w ih =>
    intro n hn
    by_cases h0 : n = 0
    · subst h0; rw [lsDigits_eq]; simp
    · rw [lsDigits_eq, if_neg h0]
      have hpow : (62 : Nat) ^ (w + 1) = 62 * 62 ^ w := by ring
      have hdiv : n / 62 < 62 ^ w := Nat.div_lt_of_lt_mul (hpow ▸ hn)
      simpa using Nat.succ_le_succ (ih (n / 62) hdiv)

theorem digitsBE_zero (w : Nat) : digitsBE w 0 = List.replicate w '0' := by
  induction w with
  | zero => rfl
  | succ w ih =>
    rw [digitsBE]
    simp only [Nat.zero_div, Nat.zero_mod, ih]
    rw [List.replicate_succ']
    rfl

theorem digitsBE_len (w : Nat) : ∀ n, (digitsBE w n).length = w := by
  induction w with
  | zero => intro n; rfl
  | succ w ih => intro n; simp [digitsBE, ih]

theorem lsDigits_pad : ∀ (w n : Nat), n < 62 ^ w →
    List.replicate (w - (lsDigits n).length) '0' ++ (lsDigits n).reverse =
      digitsBE w n := by
  intro w
  induction w with
  | zero =>
    intro n hn
    interval_cases n
    rw [lsDigits_eq]
    rfl
  | succ w ih =>
    intro n hn
    by_cases h0 : n = 0
    · subst h0
      rw [lsDigits_eq]
      simp [digitsBE_zero]
    · rw [lsDigits_eq, if_neg h0]
      have hpow : (62 : Nat) ^ (w + 1) = 62 * 62 ^ w := by ring
      have hdiv : n / 62 < 62 ^ w := Nat.div_lt_of_lt_mul (hpow ▸ hn)
      have ihh := ih (n / 62) hdiv
      have hlen : (lsDigits (n / 62)).length ≤ w := lsDigits_len w (n / 62) hdiv
      rw [digitsBE]
      simp only [List.length_cons, List.reverse_cons]
      have hsub : w + 1 - ((lsDigits (n / 62)).length + 1) =
          w - (lsDigits (n / 62)).length := by omega
      rw [hsub, ← List.append_assoc, ihh]

theorem encode_width_eq_digitsBE (w n : Nat) (hn : n < 62 ^ w) (hw : 1 ≤ w) :
    encode_base62_width n w = digitsBE w n := by
  by_cases h0 : n = 0
  · subst h0
    have henc : encode_base62 0 = ['0'] := rfl
    unfold encode_base62_width
    rw [henc]
    simp only [List.length_cons, List.length_nil]
    by_cases hw1 : w ≤ 1
    · have hw2 : w = 1 := by omega
      subst hw2
      rw [if_pos (by norm_num)]
      simp [digitsBE, base62Char, alphabet62]
    · rw [if_neg hw1, digitsBE_zero]
      have h2 : w = (w - 1) + 1 := by omega
      calc List.replicate (w - 0 - 1) '0' ++ ['0']
          = List.replicate ((w - 1) + 1) '0' := by
            rw [(List.replicate_succ' (w - 1) '0')]
            congr 2
        _ = List.replicate w '0' := by rw [← h2]
  · unfold encode_base62_width encode_base62
    simp only [if_neg h0]
    have hlen0 : lsDigits n ≠ [] := by
      rw [lsDigits_eq, if_neg h0]
      simp
    have hlen : (lsDigits n).length ≤ w := lsDigits_len w n hn
    by_cases hge : w ≤ (lsDigits n).reverse.length
    · rw [if_pos hge]
      have heq : (lsDigits n).length = w := by
        simp only [List.length_reverse] at hge
        omega
      have := lsDigits_pad w n hn
      rw [heq] at this
      simpa using this
    · rw [if_neg hge]
      have := lsDigits_pad w n hn
      simpa using this

theorem base62Char_mono : ∀ i < 62, ∀ j < 62, i < j → base62Char i < base62Char j := by
  decide

theorem bytesLtB_append_last (x y : Char) :
    ∀ (xs ys : Str), xs.length = ys.length →
      (bytesLtB xs ys = true ∨ (xs = ys ∧ x < y)) →
      bytesLtB (xs ++ [x]) (ys ++ [y]) = true := by
  intro xs
  induction xs with
  | nil =>
    intro ys hlen hor
    have hys : ys = [] := by
      cases ys with
      | nil => rfl
      | cons b bs => simp at hlen
    subst hys
    rcases hor with h1 | h2
    · exact absurd h1 (by simp [bytesLtB])
    · simp only [List.nil_append]
      simp [bytesLtB, h2.2]
  | cons a as ih =>
    intro ys hlen hor
    cases ys with
    | nil => simp at hlen
    | cons b bs =>
      have hlen2 : as.length = bs.length := by simpa using hlen
      simp only [List.cons_append]
      rw [bytesLtB]
      by_cases hab : a < b
      · rw [if_pos hab]
      · rw [if_neg hab]
        by_cases hba : b < a
        · rcases hor with h1 | h2
          · rw [bytesLtB, if_neg hab, if_pos hba] at h1
            exact absurd h1 (by simp)
          · have : a = b := by
              have := congrArg List.head? h2.1
              simpa using this
            exact absurd (this ▸ hba) (lt_irrefl a)
        · rw [if_neg hba]
          apply ih bs hlen2
          rcases hor with h1 | h2
          · rw [bytesLtB, if_neg hab, if_neg hba] at h1
            exact Or.inl h1
          · obtain ⟨hab2, has⟩ := List.cons.inj h2.1
            exact Or.inr ⟨has, h2.2⟩

theorem digitsBE_lt : ∀ (w a b : Nat), a < 62 ^ w → b < 62 ^ w → a < b →
    bytesLtB (digitsBE w a) (digitsBE w b) = true := by
  intro w
  induction w with
  | zero =>
    intro a b ha hb hab
    interval_cases a
    omega
  | succ w ih =>
    intro a b ha hb hab
    have hpow : (62 : Nat) ^ (w + 1) = 62 * 62 ^ w := by ring
    have hda : a / 62 < 62 ^ w := Nat.div_lt_of_lt_mul (hpow ▸ ha)
    have hdb : b / 62 < 62 ^ w := Nat.div_lt_of_lt_mul (hpow ▸ hb)
    have hle : a / 62 ≤ b / 62 := Nat.div_le_div_right (le_of_lt hab)
    rw [digitsBE, digitsBE]
    by_cases hdiv : a / 62 < b / 62
    · exact bytesLtB_append_last _ _ _ _
        (by rw [digitsBE_len, digitsBE_len]) (Or.inl (ih _ _ hda hdb hdiv))
    · have heq : a / 62 = b / 62 := by omega
      have hmod : a % 62 < b % 62 := by
        have hha := Nat.div_add_mod a 62
        have hhb := Nat.div_add_mod b 62
        omega
      exact bytesLtB_append_last _ _ _ _
        (by rw [digitsBE_len, digitsBE_len])
        (Or.inr ⟨by rw [heq], base62Char_mono _ (Nat.mod_lt a (by norm_num)) _
          (Nat.mod_lt b (by norm_num)) hmod⟩)

theorem encode_width_lt (a b : Nat) (hab : a < b) (hb : b < 62 ^ ID_TS_WIDTH) :
    bytesLt (encode_base62_width a ID_TS_WIDTH) (encode_base62_width b ID_TS_WIDTH) := by
  have ha : a < 62 ^ ID_TS_WIDTH := lt_trans hab hb
  unfold bytesLt
  rw [encode_width_eq_digitsBE ID_TS_WIDTH a ha (by norm_num [ID_TS_WIDTH]),
    encode_width_eq_digitsBE ID_TS_WIDTH b hb (by norm_num [ID_TS_WIDTH])]
  exact digitsBE_lt ID_TS_WIDTH a b ha hb hab

theorem runCalls_mono : ∀ (calls : List GenCall) (st : IdState),
    st.last_ts ≤ (runCalls calls st).2.last_ts := by
  intro calls
  induction calls with
  | nil => intro st; exact le_refl _
  | cons c rest ih =>
    intro st
    rw [runCalls]
    cases hgen : generate_new_id c.fuel c.clock c.exF c.reserved st with
    | none => exact le_refl _
    | some r =>
      have hlt := (genLoop_ts_gt c.clock c.exF c.fuel c.reserved st 0 r hgen).1
      have := ih r.2
      simp only
      omega

theorem runCalls_ids : ∀ (calls : List GenCall) (st : IdState),
    ∀ id ∈ (runCalls calls st).1, ∃ t : Int,
      id = encode_base62_width t.toNat ID_TS_WIDTH ∧
      st.last_ts < t ∧ t ≤ (runCalls calls st).2.last_ts := by
  intro calls
  induction calls with
  | nil => intro st id hid; exact absurd hid (by simp [runCalls])
  | cons c rest ih =>
    intro st id hid
    rw [runCalls] at hid ⊢
    cases hgen : generate_new_id c.fuel c.clock c.exF c.reserved st with
    | none => rw [hgen] at hid; exact absurd hid (by simp)
    | some r =>
      rw [hgen] at hid
      obtain ⟨hlt, _, hid_enc⟩ := genLoop_ts_gt c.clock c.exF c.fuel c.reserved st 0 r hgen
      simp only [List.mem_cons] at hid
      rcases hid with heq | hmem
      · refine ⟨r.2.last_ts, heq ▸ hid_enc, hlt, ?_⟩
        have := runCalls_mono rest r.2
        simp only
        omega
      · obtain ⟨t, ht1, ht2, ht3⟩ := ih r.2 id hmem
        refine ⟨t, ht1, by omega, by simp only; omega⟩

/-- C2 (amended): across any sequence of generator calls in one process,
with any clock inputs, the returned ids are strictly increasing as byte
strings, provided every timestamp fits in the fixed 9-character width. -/
theorem next_id_lex_mono (calls : List GenCall) (st : IdState)
    (h0 : 0 ≤ st.last_ts)
    (hfit : (runCalls calls st).2.last_ts < 62 ^ ID_TS_WIDTH) :
    (runCalls calls st).1.Pairwise bytesLt := by
  induction calls generalizing st with
  | nil => simp [runCalls]
  | cons c rest ih =>
    rw [runCalls] at hfit ⊢
    cases hgen : generate_new_id c.fuel c.clock c.exF c.reserved st with
    | none => simp
    | some r =>
      rw [hgen] at hfit
      obtain ⟨hlt, _, hid_enc⟩ := genLoop_ts_gt c.clock c.exF c.fuel c.reserved st 0 r hgen
      simp only at hfit
      refine List.Pairwise.cons ?_ (ih r.2 (by omega) hfit)
      intro b hb
      obtain ⟨t, ht1, ht2, ht3⟩ := runCalls_ids rest r.2 b hb
      rw [hid_enc, ht1]
      apply encode_width_lt
      · omega
      · have hgi : ((62 : Int)) ^ ID_TS_WIDTH = ((62 ^ ID_TS_WIDTH : Nat) : Int) := by
          push_cast
          ring
        have ht4 : t < ((62 ^ ID_TS_WIDTH : Nat) : Int) := by
          rw [← hgi]
          omega
        omega

/-- C2 (counterexample): at the 9-character width boundary (timestamp
62^9), byte-string order breaks, so the claim does not hold for every
clock input. -/
theorem next_id_lex_counterexample :
    (runCalls [⟨fun _ => 62 ^ 9 - 1, fun _ => false, [], 1⟩,
        ⟨fun _ => 0, fun _ => false, [], 1⟩] ⟨0, 0⟩).1.length = 2 ∧
    ¬ (runCalls [⟨fun _ => 62 ^ 9 - 1, fun _ => false, [], 1⟩,
        ⟨fun _ => 0, fun _ => false, [], 1⟩] ⟨0, 0⟩).1.Pairwise bytesLt := by
  decide

/-- Witness for `next_id_lex_mono` at a concrete two-call run. -/
theorem next_id_lex_mono_witness :
    (0 : Int) ≤ (⟨0, 0⟩ : IdState).last_ts ∧
    (runCalls [⟨fun _ => 1, fun _ => false, [], 1⟩,
        ⟨fun _ => 1, fun _ => false, [], 1⟩] ⟨0, 0⟩).2.last_ts < 62 ^ ID_TS_WIDTH ∧
    (runCalls [⟨fun _ => 1, fun _ => false, [], 1⟩,
        ⟨fun _ => 1, fun _ => false, [], 1⟩] ⟨0, 0⟩).1.Pairwise bytesLt :=
  ⟨by decide, by decide,
    next_id_lex_mono [⟨fun _ => 1, fun _ => false, [], 1⟩,
      ⟨fun _ => 1, fun _ => false, [], 1⟩] ⟨0, 0⟩ (by decide) (by decide)⟩

theorem encode_width_len (n : Nat) (hn : n < 62 ^ ID_TS_WIDTH) :
    (encode_base62_width n ID_TS_WIDTH).length = ID_TS_WIDTH := by
  rw [encode_width_eq_digitsBE ID_TS_WIDTH n hn (by norm_num [ID_TS_WIDTH])]
  exact digitsBE_len ID_TS_WIDTH n

/-- C8: the id-construction branch with a counter suffix is unreachable —
the generator loop behaves exactly like the loop with the counter
mechanism deleted (each chosen ts is strictly above the stored last_ts, so
the counter is 0 whenever a candidate id is built), and every returned id
is exactly the 9-character zero-padded base-62 timestamp encoding with no
suffix (9 characters long whenever the timestamp fits the width). -/
theorem gen_counter_unreachable (fuel : Nat) (clock : Nat → Int) (exF : Str → Bool)
    (reserved : List Str) (st : IdState) (k : Nat) :
    ((genLoop clock exF fuel reserved st k).map (fun r => (r.1, r.2.last_ts)) =
      genLoopNoCtr clock exF fuel reserved st.last_ts k) ∧
    (∀ r, genLoop clock exF fuel reserved st k = some r →
      r.2.counter = 0 ∧
      r.1 = encode_base62_width r.2.last_ts.toNat ID_TS_WIDTH ∧
      (r.2.last_ts.toNat < 62 ^ ID_TS_WIDTH → r.1.length = ID_TS_WIDTH)) := by
  constructor
  · induction fuel generalizing reserved st k with
    | zero => rfl
    | succ fuel ih =>
      rw [genLoop_succ, genLoopNoCtr]
      simp only
      by_cases hfresh :
          encode_base62_width
              (if clock k ≤ st.last_ts then st.last_ts + 1 else clock k).toNat
              ID_TS_WIDTH ∉ reserved ∧
            exF (encode_base62_width
              (if clock k ≤ st.last_ts then st.last_ts + 1 else clock k).toNat
              ID_TS_WIDTH) = false
      · rw [if_pos hfresh, if_pos hfresh]
        rfl
      · rw [if_neg hfresh, if_neg hfresh]
        exact ih _ _ _
  · intro r hr
    obtain ⟨_, hctr, henc⟩ := genLoop_ts_gt clock exF fuel reserved st k r hr
    exact ⟨hctr, henc, fun hfit => henc ▸ encode_width_len _ hfit⟩

/-- Witness for `gen_counter_unreachable` at a concrete call. -/
theorem gen_counter_unreachable_witness :
    ((genLoop (fun _ => 7) (fun _ => false) 1 [] ⟨0, 0⟩ 0).map
        (fun r => (r.1, r.2.last_ts)) =
      genLoopNoCtr (fun _ => 7) (fun _ => false) 1 [] 0 0) ∧
    ((⟨['0', '0', '0', '0', '0', '0', '0', '0', '7'], ⟨7, 0⟩⟩ : Str × IdState).2.counter = 0 ∧
      (⟨['0', '0', '0', '0', '0', '0', '0', '0', '7'], ⟨7, 0⟩⟩ : Str × IdState).1 =
        encode_base62_width
          (⟨['0', '0', '0', '0', '0', '0', '0', '0', '7'], ⟨7, 0⟩⟩ :
            Str × IdState).2.last_ts.toNat ID_TS_WIDTH) :=
  ⟨(gen_counter_unreachable 1 (fun _ => 7) (fun _ => false) [] ⟨0, 0⟩ 0).1,
    ((gen_counter_unreachable 1 (fun _ => 7) (fun _ => false) [] ⟨0, 0⟩ 0).2
        ⟨['0', '0', '0', '0', '0', '0', '0', '0', '7'], ⟨7, 0⟩⟩ (by decide)).1,
    ((gen_counter_unreachable 1 (fun _ => 7) (fun _ => false) [] ⟨0, 0⟩ 0).2
        ⟨['0', '0', '0', '0', '0', '0', '0', '0', '7'], ⟨7, 0⟩⟩ (by decide)).2.1⟩

/-- C4 (counterexample): two calls with the clock frozen at the same
microsecond do NOT share the same 9-character prefix with a counter
suffix on the second id; the second call instead advances the timestamp,
producing a 9-character suffix-free id. -/
theorem same_micros_counterexample :
    (runCalls [⟨fun _ => 1, fun _ => false, [], 1⟩,
        ⟨fun _ => 1, fun _ => false, [], 1⟩] ⟨0, 0⟩).1 =
      [['0', '0', '0', '0', '0', '0', '0', '0', '1'],
       ['0', '0', '0', '0', '0', '0', '0', '0', '2']] ∧
    ¬ (((runCalls [⟨fun _ => 1, fun _ => false, [], 1⟩,
          ⟨fun _ => 1, fun _ => false, [], 1⟩] ⟨0, 0⟩).1.getD 1 []).take 9 =
        (runCalls [⟨fun _ => 1, fun _ => false, [], 1⟩,
          ⟨fun _ => 1, fun _ => false, [], 1⟩] ⟨0, 0⟩).1.getD 0 [] ∧
       9 < ((runCalls [⟨fun _ => 1, fun _ => false, [], 1⟩,
          ⟨fun _ => 1, fun _ => false, [], 1⟩] ⟨0, 0⟩).1.getD 1 []).length) := by
  decide

/-- C4 (amended): two generator calls whose clock reads the same
microsecond T both times yield the 9-character encodings of T and T+1 —
both suffix-free and of length exactly 9 — and the first id is strictly
below the second in byte-string order. -/
theorem same_micros_twice (T : Int) (h1 : 0 < T) (h2 : T + 1 < 62 ^ ID_TS_WIDTH) :
    runCalls [⟨fun _ => T, fun _ => false, [], 1⟩,
        ⟨fun _ => T, fun _ => false, [], 1⟩] ⟨0, 0⟩ =
      ([encode_base62_width T.toNat ID_TS_WIDTH,
        encode_base62_width (T + 1).toNat ID_TS_WIDTH], ⟨T + 1, 0⟩) ∧
    (encode_base62_width T.toNat ID_TS_WIDTH).length = ID_TS_WIDTH ∧
    (encode_base62_width (T + 1).toNat ID_TS_WIDTH).length = ID_TS_WIDTH ∧
    bytesLt (encode_base62_width T.toNat ID_TS_WIDTH)
      (encode_base62_width (T + 1).toNat ID_TS_WIDTH) := by
  have hgi : ((62 : Int)) ^ ID_TS_WIDTH = ((62 ^ ID_TS_WIDTH : Nat) : Int) := by
    push_cast
    ring
  have hfit2 : (T + 1).toNat < 62 ^ ID_TS_WIDTH := by
    rw [hgi] at h2
    omega
  have hfit1 : T.toNat < 62 ^ ID_TS_WIDTH := by omega
  have hlt : T.toNat < (T + 1).toNat := by omega
  have hnotle : ¬ (T ≤ (0 : Int)) := by omega
  have hc1 : generate_new_id 1 (fun _ => T) (fun _ => false) [] ⟨0, 0⟩ =
      some (encode_base62_width T.toNat ID_TS_WIDTH, ⟨T, 0⟩) := by
    unfold generate_new_id
    rw [genLoop_succ]
    simp [hnotle]
  have hc2 : generate_new_id 1 (fun _ => T) (fun _ => false) [] ⟨T, 0⟩ =
      some (encode_base62_width (T + 1).toNat ID_TS_WIDTH, ⟨T + 1, 0⟩) := by
    unfold generate_new_id
    rw [genLoop_succ]
    simp
  refine ⟨?_, encode_width_len _ hfit1, encode_width_len _ hfit2,
    encode_width_lt _ _ hlt hfit2⟩
  rw [runCalls, hc1]
  simp only
  rw [runCalls, hc2]
  rfl

/-- Witness for `same_micros_twice` at T = 1. -/
theorem same_micros_twice_witness :
    (0 : Int) < 1 ∧ (1 : Int) + 1 < 62 ^ ID_TS_WIDTH ∧
    (runCalls [⟨fun _ => 1, fun _ => false, [], 1⟩,
        ⟨fun _ => 1, fun _ => false, [], 1⟩] ⟨0, 0⟩ =
      ([encode_base62_width (1 : Int).toNat ID_TS_WIDTH,
        encode_base62_width ((1 : Int) + 1).toNat ID_TS_WIDTH], ⟨(1 : Int) + 1, 0⟩)) ∧
    bytesLt (encode_base62_width (1 : Int).toNat ID_TS_WIDTH)
      (encode_base62_width ((1 : Int) + 1).toNat ID_TS_WIDTH) :=
  ⟨by decide, by decide, (same_micros_twice 1 (by decide) (by decide)).1,
    (same_micros_twice 1 (by decide) (by decide)).2.2.2⟩

theorem lookupFS_insert_self (m : FS) (k v : Str) :
    lookupFS (insertFS m k v) k = some v := by
  simp [insertFS, lookupFS]

theorem lookupFS_erase_ne (m : FS) (k k2 : Str) (h : k2 ≠ k) :
    lookupFS (eraseFS m k) k2 = lookupFS m k2 := by
  induction m with
  | nil => rfl
  | cons e rest ih =>
    rw [eraseFS]
    by_cases he : e.1 = k
    · rw [if_pos he, lookupFS, if_neg (by rw [he]; exact fun hc => h hc.symm), ih]
    · rw [if_neg he, lookupFS, lookupFS]
      by_cases he2 : e.1 = k2
      · rw [if_pos he2, if_pos he2]
      · rw [if_neg he2, if_neg he2, ih]

theorem lookupFS_insert_ne (m : FS) (k v k2 : Str) (h : k2 ≠ k) :
    lookupFS (insertFS m k v) k2 = lookupFS m k2 := by
  rw [insertFS, lookupFS, if_neg (fun hc => h hc.symm), lookupFS_erase_ne m k k2 h]

theorem genLoop_fresh (clock : Nat → Int) (exF : Str → Bool) :
    ∀ (fuel : Nat) (reserved : List Str) (st : IdState) (k : Nat) (r : Str × IdState),
      genLoop clock exF fuel reserved st k = some r → exF r.1 = false := by
  intro fuel
  induction fuel with
  | zero => intro reserved st k r hr; exact absurd hr (by simp [genLoop])
  | succ fuel ih =>
    intro reserved st k r hr
    rw [genLoop_succ] at hr
    simp only at hr
    by_cases hfresh :
        encode_base62_width
            (if clock k ≤ st.last_ts then st.last_ts + 1 else clock k).toNat
            ID_TS_WIDTH ∉ reserved ∧
          exF (encode_base62_width
            (if clock k ≤ st.last_ts then st.last_ts + 1 else clock k).toNat
            ID_TS_WIDTH) = false
    · rw [if_pos hfresh] at hr
      obtain rfl : r = (_, _) := by cases hr; rfl
      exact hfresh.2
    · rw [if_neg hfresh] at hr
      exact ih _ _ _ _ hr

/-- C3 exhibit: a note moved Active→Trash and then restored (no id
conflict) still carries its `Deleted:` stamp in the active area, because
the `fs::rename` in `restore_note` overwrites the just-written cleaned
note with the raw trashed file; updated/tags/body are unchanged. -/
theorem restore_after_trash_keeps_deleted_stamp :
    ((move_note_with_timestamp
        [(['n'], write_note_content
          { id := ['n'], title := ['T', 'i'], created := ['0', '1'],
            updated := ['0', '2'], deleted_at := none, archived_at := none,
            body := ['b', 'd'], tags := [['#', 'w']], size_bytes := 0 })]
        [] ['n'] Area.Trash ['0', '3']).bind
      (fun p => (restore_note 1 (fun _ => 1) ['n'] p.2 p.1 ⟨0, 0⟩).map
        (fun r =>
          ((parse_note ((lookupFS r.toD ['n']).getD []) ['n'] 0).deleted_at,
           (parse_note ((lookupFS r.toD ['n']).getD []) ['n'] 0).archived_at,
           (parse_note ((lookupFS r.toD ['n']).getD []) ['n'] 0).updated,
           (parse_note ((lookupFS r.toD ['n']).getD []) ['n'] 0).tags,
           (parse_note ((lookupFS r.toD ['n']).getD []) ['n'] 0).body)))) =
      some (some ['0', '3'], none, ['0', '2'], [['#', 'w']], ['b', 'd', '\n']) := by
  rfl

/-- C7 (counterexample): the id freshly generated on a restore conflict is
checked only against the destination directory, so it can coincide with
an id already in use by another (here: trashed) note. -/
theorem restore_conflict_counterexample :
    ((restore_note 1 (fun _ => 5) ['X']
        [(['X'], ['t', '1']), (['0', '0', '0', '0', '0', '0', '0', '0', '5'], ['t', '2'])]
        [] ⟨0, 0⟩).bind (fun r1 =>
      (restore_note 1 (fun _ => 5) ['X'] [(['X'], ['t', '3'])] r1.toD r1.st).map
        (fun r2 => (r2.finalId, (lookupFS r1.fromD r2.finalId).isSome)))) =
      some (['0', '0', '0', '0', '0', '0', '0', '0', '5'], true) := by
  rfl

/-- C7 (amended): when two notes resolve to the same destination id,
exactly one restore keeps the original id; the other is stored under a
freshly generated id that was not in use in the destination area at
generation time, and both notes exist in the destination afterwards. -/
theorem restore_conflict_resolution
    (fuel : Nat) (clock : Nat → Int) (X : Str) (fromD1 fromD2 toD : FS) (st : IdState)
    (h1 : (lookupFS toD X).isSome = false)
    (r1 r2 : RestoreOut)
    (hr1 : restore_note fuel clock X fromD1 toD st = some r1)
    (hr2 : restore_note fuel clock X fromD2 r1.toD r1.st = some r2) :
    r1.finalId = X ∧ r2.finalId ≠ X ∧
    lookupFS r1.toD r2.finalId = none ∧
    (lookupFS r2.toD X).isSome = true ∧
    (lookupFS r2.toD r2.finalId).isSome = true := by
  unfold restore_note at hr1
  cases hc1 : lookupFS fromD1 X with
  | none => rw [hc1] at hr1; exact absurd hr1 (by simp)
  | some c1 =>
    rw [hc1] at hr1
    simp only [h1, Bool.false_eq_true, if_false] at hr1
    obtain rfl : r1 = ⟨X, eraseFS fromD1 X,
        insertFS (insertFS toD X (write_note_content
          { parse_note c1 X c1.length with deleted_at := none, archived_at := none }))
          X c1, st⟩ := by
      cases hr1
      rfl
    have hXr1 : lookupFS (insertFS (insertFS toD X (write_note_content
        { parse_note c1 X c1.length with deleted_at := none, archived_at := none }))
          X c1) X = some c1 := lookupFS_insert_self _ _ _
    unfold restore_note at hr2
    cases hc2 : lookupFS fromD2 X with
    | none => rw [hc2] at hr2; exact absurd hr2 (by simp)
    | some c2 =>
      rw [hc2] at hr2
      simp only at hr2 hXr1
      rw [if_pos (by rw [hXr1]; rfl)] at hr2
      cases hgen : genLoop clock
          (fun i => (lookupFS (insertFS (insertFS toD X (write_note_content
            { parse_note c1 X c1.length with deleted_at := none, archived_at := none }))
            X c1) i).isSome) fuel [] st 0 with
      | none => rw [hgen] at hr2; exact absurd hr2 (by simp)
      | some g =>
        rw [hgen] at hr2
        have hfresh := genLoop_fresh _ _ fuel [] st 0 g hgen
        simp only at hfresh
        have hlkp : lookupFS (insertFS (insertFS toD X (write_note_content
            { parse_note c1 X c1.length with deleted_at := none, archived_at := none }))
            X c1) g.1 = none := by
          cases hl : lookupFS (insertFS (insertFS toD X (write_note_content
              { parse_note c1 X c1.length with deleted_at := none, archived_at := none }))
              X c1) g.1 with
          | none => rfl
          | some v => rw [hl] at hfresh; simp at hfresh
        have hne : g.1 ≠ X := by
          intro hc
          rw [hc, hXr1] at hlkp
          exact absurd hlkp (by simp)
        obtain rfl : r2 = ⟨g.1, eraseFS fromD2 X,
            insertFS (insertFS (insertFS toD X (write_note_content
              { parse_note c1 X c1.length with deleted_at := none, archived_at := none }))
              X c1) g.1
              (write_note_content
                { parse_note c2 X c2.length with
                    id := g.1, deleted_at := none, archived_at := none }), g.2⟩ := by
          cases hr2
          rfl
        refine ⟨rfl, hne, hlkp, ?_, ?_⟩
        · rw [lookupFS_insert_ne _ _ _ _ (fun hc => hne hc.symm), hXr1]
          rfl
        · rw [lookupFS_insert_self]
          rfl

/-- Witness for `restore_conflict_resolution` at a concrete two-restore
scenario. -/
theorem restore_conflict_resolution_witness :
    (lookupFS ([] : FS) ['X']).isSome = false ∧
    (['X'] : Str) = ['X'] ∧
    (['0', '0', '0', '0', '0', '0', '0', '0', '5'] : Str) ≠ ['X'] ∧
    lookupFS [(['X'], ['t', '1'])] ['0', '0', '0', '0', '0', '0', '0', '0', '5'] = none ∧
    (lookupFS
        (insertFS [(['X'], ['t', '1'])] ['0', '0', '0', '0', '0', '0', '0', '0', '5']
          (write_note_content
            { parse_note ['t', '3'] ['X'] 2 with
                id := ['0', '0', '0', '0', '0', '0', '0', '0', '5'],
                deleted_at := none, archived_at := none }))
        ['X']).isSome = true ∧
    (lookupFS
        (insertFS [(['X'], ['t', '1'])] ['0', '0', '0', '0', '0', '0', '0', '0', '5']
          (write_note_content
            { parse_note ['t', '3'] ['X'] 2 with
                id := ['0', '0', '0', '0', '0', '0', '0', '0', '5'],
                deleted_at := none, archived_at := none }))
        ['0', '0', '0', '0', '0', '0', '0', '0', '5']).isSome = true := by
  refine ⟨by decide, ?_⟩
  have hmain := restore_conflict_resolution 1 (fun _ => 5) ['X']
    [(['X'], ['t', '1']), (['0', '0', '0', '0', '0', '0', '0', '0', '5'], ['t', '2'])]
    [(['X'], ['t', '3'])] [] ⟨0, 0⟩ (by decide)
    ⟨['X'], [(['0', '0', '0', '0', '0', '0', '0', '0', '5'], ['t', '2'])],
      [(['X'], ['t', '1'])], ⟨0, 0⟩⟩
    ⟨['0', '0', '0', '0', '0', '0', '0', '0', '5'], [],
      insertFS [(['X'], ['t', '1'])] ['0', '0', '0', '0', '0', '0', '0', '0', '5']
        (write_note_content
          { parse_note ['t', '3'] ['X'] 2 with
              id := ['0', '0', '0', '0', '0', '0', '0', '0', '5'],
              deleted_at := none, archived_at := none }), ⟨5, 0⟩⟩
    (by rfl) (by rfl)
  exact hmain

/-- C5: with retention > 0, a trashed note with a parseable effective
timestamp survives the sweep exactly when that timestamp is not strictly
older than `now - retention` days (strictly older notes are always
deleted, notes within the window never are); with retention 0, the sweep
deletes nothing at all. -/
theorem clean_trash_retention (parseTs : Str → Option Int) (now r : Int)
    (files : List (Str × Str)) (f : Str × Str) (hmem : f ∈ files) (t : Int)
    (hparse : parseTs
      (((parse_note f.2 f.1 f.2.length).deleted_at).getD
        (parse_note f.2 f.1 f.2.length).updated) = some t) :
    (0 < r →
      (f ∈ clean_trash parseTs now (some r) files ↔ ¬ t < now - r * dayMicros)) ∧
    clean_trash parseTs now (some 0) files = files := by
  have hrd : ∀ v : Int, trash_retention_days (some v) = if 0 ≤ v then v else 30 :=
    fun v => rfl
  constructor
  · intro hr
    have hr2 : trash_retention_days (some r) = r := by
      rw [hrd r, if_pos (by omega : (0 : Int) ≤ r)]
    unfold clean_trash
    rw [hr2, if_neg (by omega : ¬r = 0)]
    rw [List.mem_filter]
    simp only [hparse]
    constructor
    · intro hand
      intro hlt
      rw [if_pos hlt] at hand
      exact absurd hand.2 (by simp)
    · intro hge
      exact ⟨hmem, by rw [if_neg hge]⟩
  · have hr0 : trash_retention_days (some 0) = 0 := by
      rw [hrd 0, if_pos (by omega : (0 : Int) ≤ 0)]
    unfold clean_trash
    rw [hr0, if_pos rfl]

/-- Witness for `clean_trash_retention` at a concrete trash entry. -/
theorem clean_trash_retention_witness :
    (['f'], ['x']) ∈ [((['f'] : Str), (['x'] : Str))] ∧
    ((fun _ => some (5 : Int)) : Str → Option Int)
      (((parse_note ['x'] ['f'] 1).deleted_at).getD (parse_note ['x'] ['f'] 1).updated) =
      some 5 ∧
    (0 < (1 : Int) →
      ((['f'], ['x']) ∈ clean_trash (fun _ => some 5) 10 (some 1) [(['f'], ['x'])] ↔
        ¬ (5 : Int) < 10 - 1 * dayMicros)) ∧
    clean_trash (fun _ => some 5) 10 (some 0) [(['f'], ['x'])] = [(['f'], ['x'])] :=
  ⟨by decide, by rfl,
    clean_trash_retention (fun _ => some 5) 10 1 [(['f'], ['x'])] (['f'], ['x'])
      (by decide) 5 (by rfl)⟩

/-- C10: the sweep compares `deleted_at` when present and otherwise
`updated`; a note whose comparison timestamp fails to parse is always
kept (and the sweep reports no error — it is a total function). -/
theorem clean_trash_effective_ts (parseTs : Str → Option Int) (now : Int)
    (env : Option Int) (files : List (Str × Str)) (f : Str × Str) (hmem : f ∈ files) :
    (parseTs
        (((parse_note f.2 f.1 f.2.length).deleted_at).getD
          (parse_note f.2 f.1 f.2.length).updated) = none →
      f ∈ clean_trash parseTs now env files) ∧
    (∀ d, (parse_note f.2 f.1 f.2.length).deleted_at = some d →
      (f ∈ clean_trash parseTs now env files ↔
        trash_retention_days env = 0 ∨
          ∀ t, parseTs d = some t →
            ¬ t < now - trash_retention_days env * dayMicros)) ∧
    ((parse_note f.2 f.1 f.2.length).deleted_at = none →
      (f ∈ clean_trash parseTs now env files ↔
        trash_retention_days env = 0 ∨
          ∀ t, parseTs (parse_note f.2 f.1 f.2.length).updated = some t →
            ¬ t < now - trash_retention_days env * dayMicros)) := by
  refine ⟨?_, ?_, ?_⟩
  · intro hfail
    unfold clean_trash
    by_cases h0 : trash_retention_days env = 0
    · rw [if_pos h0]; exact hmem
    · rw [if_neg h0]
      rw [List.mem_filter]
      refine ⟨hmem, ?_⟩
      simp only [hfail]
  · intro d hd
    unfold clean_trash
    by_cases h0 : trash_retention_days env = 0
    · rw [if_pos h0]
      simp [hmem, h0]
    · rw [if_neg h0]
      rw [List.mem_filter]
      simp only [hd, Option.getD_some]
      cases hp : parseTs d with
      | none => simp [hmem, h0]
      | some t =>
        constructor
        · intro hand
          refine Or.inr (fun t2 ht2 => ?_)
          obtain rfl : t2 = t := (Option.some.inj ht2).symm
          intro hlt
          have hkeep := hand.2
          simp only at hkeep
          rw [if_pos hlt] at hkeep
          exact absurd hkeep (by simp)
        · intro hor
          rcases hor with h0c | hall
          · exact absurd h0c h0
          · refine ⟨hmem, ?_⟩
            simp only
            rw [if_neg (hall t rfl)]
  · intro hd
    unfold clean_trash
    by_cases h0 : trash_retention_days env = 0
    · rw [if_pos h0]
      simp [hmem, h0]
    · rw [if_neg h0]
      rw [List.mem_filter]
      simp only [hd, Option.getD_none]
      cases hp : parseTs (parse_note f.2 f.1 f.2.length).updated with
      | none => simp [hmem, h0]
      | some t =>
        constructor
        · intro hand
          refine Or.inr (fun t2 ht2 => ?_)
          obtain rfl : t2 = t := (Option.some.inj ht2).symm
          intro hlt
          have hkeep := hand.2
          simp only at hkeep
          rw [if_pos hlt] at hkeep
          exact absurd hkeep (by simp)
        · intro hor
          rcases hor with h0c | hall
          · exact absurd h0c h0
          · refine ⟨hmem, ?_⟩
            simp only
            rw [if_neg (hall t rfl)]

/-- Witness for `clean_trash_effective_ts` at a concrete entry whose
timestamp does not parse. -/
theorem clean_trash_effective_ts_witness :
    (['f'], ['x']) ∈ [((['f'] : Str), (['x'] : Str))] ∧
    ((fun _ => (none : Option Int)) : Str → Option Int)
      (((parse_note ['x'] ['f'] 1).deleted_at).getD (parse_note ['x'] ['f'] 1).updated) =
      none ∧
    (['f'], ['x']) ∈ clean_trash (fun _ => none) 10 (some 7) [(['f'], ['x'])] :=
  ⟨by decide, by rfl,
    (clean_trash_effective_ts (fun _ => none) 10 (some 7) [(['f'], ['x'])]
      (['f'], ['x']) (by decide)).1 (by rfl)⟩

theorem then_eq_lt (o p : Ordering) :
    o.then p = Ordering.lt ↔ o = Ordering.lt ∨ (o = Ordering.eq ∧ p = Ordering.lt) := by
  cases o <;> simp [Ordering.then]

theorem then_eq_eq (o p : Ordering) :
    o.then p = Ordering.eq ↔ o = Ordering.eq ∧ p = Ordering.eq := by
  cases o <;> simp [Ordering.then]

theorem then_ne_gt (o p : Ordering) :
    o.then p ≠ Ordering.gt ↔ o = Ordering.lt ∨ (o = Ordering.eq ∧ p ≠ Ordering.gt) := by
  cases o <;> simp [Ordering.then]

theorem charCmp_gt_iff (x y : Char) : charCmp x y = Ordering.gt ↔ y < x := by
  unfold charCmp
  split_ifs with h1 h2
  · exact iff_of_false (by simp) (lt_asymm h1)
  · exact iff_of_true rfl h2
  · exact iff_of_false (by simp) h2

theorem charCmp_lt_iff (x y : Char) : charCmp x y = Ordering.lt ↔ x < y := by
  unfold charCmp
  split_ifs with h1 h2
  · exact iff_of_true rfl h1
  · exact iff_of_false (by simp) h1
  · exact iff_of_false (by simp) h1

theorem charCmp_eq_iff (x y : Char) : charCmp x y = Ordering.eq ↔ x = y := by
  unfold charCmp
  split_ifs with h1 h2
  · exact iff_of_false (by simp) (ne_of_lt h1)
  · exact iff_of_false (by simp) (ne_of_gt h2)
  · exact iff_of_true rfl (le_antisymm (le_of_not_lt h2) (le_of_not_lt h1))

theorem cmpChars_gt_iff_lt : ∀ (a b : Str),
    cmpChars a b = Ordering.gt ↔ cmpChars b a = Ordering.lt := by
  intro a
  induction a with
  | nil =>
    intro b
    cases b with
    | nil => simp [cmpChars]
    | cons y ys => simp [cmpChars]
  | cons x xs ih =>
    intro b
    cases b with
    | nil => simp [cmpChars]
    | cons y ys =>
      show (charCmp x y).then (cmpChars xs ys) = Ordering.gt ↔
        (charCmp y x).then (cmpChars ys xs) = Ordering.lt
      constructor
      · intro h
        rcases (by cases hc : charCmp x y <;> simp [hc, Ordering.then] at h ⊢ <;>
            exact h :
            charCmp x y = Ordering.gt ∨
              (charCmp x y = Ordering.eq ∧ cmpChars xs ys = Ordering.gt)) with hg | ⟨he, ht⟩
        · have hyx : y < x := (charCmp_gt_iff x y).mp hg
          have : charCmp y x = Ordering.lt := (charCmp_lt_iff y x).mpr hyx
          simp [this, Ordering.then]
        · have hxy : x = y := (charCmp_eq_iff x y).mp he
          have : charCmp y x = Ordering.eq := (charCmp_eq_iff y x).mpr hxy.symm
          simp [this, Ordering.then]
          exact (ih ys).mp ht
      · intro h
        rcases (by cases hc : charCmp y x <;> simp [hc, Ordering.then] at h ⊢ <;>
            exact h :
            charCmp y x = Ordering.lt ∨
              (charCmp y x = Ordering.eq ∧ cmpChars ys xs = Ordering.lt)) with hg | ⟨he, ht⟩
        · have hyx : y < x := (charCmp_lt_iff y x).mp hg
          have : charCmp x y = Ordering.gt := (charCmp_gt_iff x y).mpr hyx
          simp [this, Ordering.then]
        · have hxy : y = x := (charCmp_eq_iff y x).mp he
          have : charCmp x y = Ordering.eq := (charCmp_eq_iff x y).mpr hxy.symm
          simp [this, Ordering.then]
          exact (ih ys).mpr ht

theorem cmpChars_ne_gt_iff (a b : Str) :
    cmpChars a b ≠ Ordering.gt ↔ cmpChars b a ≠ Ordering.lt :=
  not_congr (cmpChars_gt_iff_lt a b)

theorem cmpChars_trans_le : ∀ (a b c : Str),
    cmpChars a b ≠ Ordering.gt → cmpChars b c ≠ Ordering.gt →
      cmpChars a c ≠ Ordering.gt := by
  intro a
  induction a with
  | nil =>
    intro b c _ _
    cases c with
    | nil => simp [cmpChars]
    | cons z zs => simp [cmpChars]
  | cons x xs ih =>
    intro b c h1 h2
    cases b with
    | nil => exact absurd (show cmpChars (x :: xs) [] = Ordering.gt from rfl) h1
    | cons y ys =>
      cases c with
      | nil => exact absurd (show cmpChars (y :: ys) [] = Ordering.gt from rfl) h2
      | cons z zs =>
        have h1c := (then_ne_gt _ _).mp h1
        have h2c := (then_ne_gt _ _).mp h2
        show (charCmp x z).then (cmpChars xs zs) ≠ Ordering.gt
        rw [then_ne_gt]
        rcases h1c with hlt1 | ⟨heq1, ht1⟩
        · have hxy : x < y := (charCmp_lt_iff x y).mp hlt1
          rcases h2c with hlt2 | ⟨heq2, _⟩
          · have hyz : y < z := (charCmp_lt_iff y z).mp hlt2
            exact Or.inl ((charCmp_lt_iff x z).mpr (lt_trans hxy hyz))
          · have hyz : y = z := (charCmp_eq_iff y z).mp heq2
            exact Or.inl ((charCmp_lt_iff x z).mpr (hyz ▸ hxy))
        · have hxy : x = y := (charCmp_eq_iff x y).mp heq1
          rcases h2c with hlt2 | ⟨heq2, ht2⟩
          · have hyz : y < z := (charCmp_lt_iff y z).mp hlt2
            exact Or.inl ((charCmp_lt_iff x z).mpr (hxy ▸ hyz))
          · have hyz : y = z := (charCmp_eq_iff y z).mp heq2
            refine Or.inr ⟨(charCmp_eq_iff x z).mpr (hxy.trans hyz), ?_⟩
            exact ih ys zs ht1 ht2

theorem cmpI_lt_iff (a b : Int) : cmpI a b = Ordering.lt ↔ a < b := by
  unfold cmpI
  split_ifs with h1 h2
  · exact iff_of_true rfl h1
  · exact iff_of_false (by simp) h1
  · exact iff_of_false (by simp) h1

theorem cmpI_eq_iff (a b : Int) : cmpI a b = Ordering.eq ↔ a = b := by
  unfold cmpI
  split_ifs with h1 h2
  · exact iff_of_false (by simp) (by omega)
  · exact iff_of_false (by simp) (by omega)
  · exact iff_of_true rfl (by omega)

theorem cmpN_lt_iff (a b : Nat) : cmpN a b = Ordering.lt ↔ a < b := by
  unfold cmpN
  split_ifs with h1 h2
  · exact iff_of_true rfl h1
  · exact iff_of_false (by simp) h1
  · exact iff_of_false (by simp) h1

theorem cmpN_eq_iff (a b : Nat) : cmpN a b = Ordering.eq ↔ a = b := by
  unfold cmpN
  split_ifs with h1 h2
  · exact iff_of_false (by simp) (by omega)
  · exact iff_of_false (by simp) (by omega)
  · exact iff_of_true rfl (by omega)

theorem tagLe_iff_spec (a b : Str × TagStat) : tagLe a b ↔ specTagLe a b := by
  unfold tagLe tagCmp specTagLe cntNameLe
  cases ha : a.2.last with
  | none =>
    cases hb : b.2.last with
    | none =>
      show (cmpN b.2.count a.2.count).then (cmpChars a.1 b.1) ≠ Ordering.gt ↔
        b.2.count < a.2.count ∨ (b.2.count = a.2.count ∧ cmpChars a.1 b.1 ≠ Ordering.gt)
      rw [then_ne_gt]
      constructor
      · intro hor
        rcases hor with hlt | ⟨heq, hne⟩
        · exact Or.inl ((cmpN_lt_iff _ _).mp hlt)
        · exact Or.inr ⟨(cmpN_eq_iff _ _).mp heq, hne⟩
      · intro hor
        rcases hor with hlt | ⟨heq, hne⟩
        · exact Or.inl ((cmpN_lt_iff _ _).mpr hlt)
        · exact Or.inr ⟨(cmpN_eq_iff _ _).mpr heq, hne⟩
    | some lb =>
      show Ordering.gt ≠ Ordering.gt ↔ False
      simp
  | some la =>
    cases hb : b.2.last with
    | none =>
      show Ordering.lt ≠ Ordering.gt ↔ True
      simp
    | some lb =>
      show ((cmpI lb la).then (cmpN b.2.count a.2.count)).then (cmpChars a.1 b.1) ≠
          Ordering.gt ↔
        lb < la ∨ (lb = la ∧ (b.2.count < a.2.count ∨
          (b.2.count = a.2.count ∧ cmpChars a.1 b.1 ≠ Ordering.gt)))
      rw [then_ne_gt, then_eq_lt, then_eq_eq]
      constructor
      · intro hor
        rcases hor with (hm | ⟨hm, hn⟩) | ⟨⟨hm, hn⟩, hc⟩
        · exact Or.inl ((cmpI_lt_iff _ _).mp hm)
        · exact Or.inr ⟨(cmpI_eq_iff _ _).mp hm, Or.inl ((cmpN_lt_iff _ _).mp hn)⟩
        · exact Or.inr ⟨(cmpI_eq_iff _ _).mp hm,
            Or.inr ⟨(cmpN_eq_iff _ _).mp hn, hc⟩⟩
      · intro hor
        rcases hor with hm | ⟨hm, hn | ⟨hn, hc⟩⟩
        · exact Or.inl (Or.inl ((cmpI_lt_iff _ _).mpr hm))
        · exact Or.inl (Or.inr ⟨(cmpI_eq_iff _ _).mpr hm, (cmpN_lt_iff _ _).mpr hn⟩)
        · exact Or.inr ⟨⟨(cmpI_eq_iff _ _).mpr hm, (cmpN_eq_iff _ _).mpr hn⟩, hc⟩

theorem cntNameLe_total (a b : Str × TagStat) : cntNameLe a b ∨ cntNameLe b a := by
  unfold cntNameLe
  rcases lt_trichotomy b.2.count a.2.count with h | h | h
  · exact Or.inl (Or.inl h)
  · by_cases hc : cmpChars a.1 b.1 = Ordering.gt
    · refine Or.inr (Or.inr ⟨h.symm, ?_⟩)
      rw [(cmpChars_gt_iff_lt a.1 b.1).mp hc]
      simp
    · exact Or.inl (Or.inr ⟨h, hc⟩)
  · exact Or.inr (Or.inl h)

theorem cntNameLe_trans (a b c : Str × TagStat)
    (h1 : cntNameLe a b) (h2 : cntNameLe b c) : cntNameLe a c := by
  unfold cntNameLe at h1 h2 ⊢
  rcases h1 with h1 | ⟨h1e, h1n⟩
  · rcases h2 with h2 | ⟨h2e, _⟩
    · exact Or.inl (by omega)
    · exact Or.inl (by omega)
  · rcases h2 with h2 | ⟨h2e, h2n⟩
    · exact Or.inl (by omega)
    · exact Or.inr ⟨by omega, cmpChars_trans_le a.1 b.1 c.1 h1n h2n⟩

theorem specTagLe_total (a b : Str × TagStat) : specTagLe a b ∨ specTagLe b a := by
  unfold specTagLe
  cases ha : a.2.last with
  | none =>
    cases hb : b.2.last with
    | none => exact cntNameLe_total a b
    | some lb => exact Or.inr trivial
  | some la =>
    cases hb : b.2.last with
    | none => exact Or.inl trivial
    | some lb =>
      rcases lt_trichotomy lb la with h | h | h
      · exact Or.inl (Or.inl h)
      · rcases cntNameLe_total a b with hcn | hcn
        · exact Or.inl (Or.inr ⟨h, hcn⟩)
        · exact Or.inr (Or.inr ⟨h.symm, hcn⟩)
      · exact Or.inr (Or.inl h)

theorem specTagLe_trans (a b c : Str × TagStat)
    (h1 : specTagLe a b) (h2 : specTagLe b c) : specTagLe a c := by
  unfold specTagLe at h1 h2 ⊢
  cases ha : a.2.last with
  | none =>
    cases hb : b.2.last with
    | none =>
      cases hc : c.2.last with
      | none =>
        rw [ha, hb] at h1
        rw [hb, hc] at h2
        exact cntNameLe_trans a b c h1 h2
      | some lc =>
        rw [hb, hc] at h2
        exact absurd h2 (by simp)
    | some lb =>
      rw [ha, hb] at h1
      exact absurd h1 (by simp)
  | some la =>
    cases hb : b.2.last with
    | none =>
      cases hc : c.2.last with
      | none => trivial
      | some lc =>
        rw [hb, hc] at h2
        exact absurd h2 (by simp)
    | some lb =>
      cases hc : c.2.last with
      | none => trivial
      | some lc =>
        rw [ha, hb] at h1
        rw [hb, hc] at h2
        rcases h1 with h1 | ⟨h1e, h1n⟩
        · rcases h2 with h2 | ⟨h2e, _⟩
          · exact Or.inl (by omega)
          · exact Or.inl (by omega)
        · rcases h2 with h2 | ⟨h2e, h2n⟩
          · exact Or.inl (by omega)
          · exact Or.inr ⟨by omega, cntNameLe_trans a b c h1n h2n⟩

/-- C9: the presented tag rows are a permutation of the aggregated rows
sorted by last-updated descending (absent timestamps after all present
ones), count descending, then tag name ascending; this relation is total,
so the order is a deterministic function of the input. -/
theorem list_tags_order (rows : List (Str × TagStat)) :
    (sortTags rows).Sorted specTagLe ∧ (sortTags rows).Perm rows ∧
    (∀ a b : Str × TagStat, specTagLe a b ∨ specTagLe b a) := by
  haveI : IsTotal (Str × TagStat) tagLe :=
    ⟨fun a b => by
      rw [tagLe_iff_spec, tagLe_iff_spec]
      exact specTagLe_total a b⟩
  haveI : IsTrans (Str × TagStat) tagLe :=
    ⟨fun a b c hab hbc => by
      rw [tagLe_iff_spec] at hab hbc ⊢
      exact specTagLe_trans a b c hab hbc⟩
  refine ⟨?_, List.perm_insertionSort tagLe rows, specTagLe_total⟩
  have hs := List.sorted_insertionSort tagLe rows
  exact hs.imp (fun hab => (tagLe_iff_spec _ _).mp hab)

theorem skipEsc_len (l : Str) : (skipEsc l).length ≤ l.length := by
  induction l with
  | nil => simp [skipEsc]
  | cons c rest ih =>
    rw [skipEsc]
    by_cases hc : c = 'm'
    · rw [if_pos hc]; simp
    · rw [if_neg hc]; simp; omega

theorem displayLen_nil : displayLen [] = 0 := by simp [displayLen]

theorem displayLen_cons (c : Char) (rest : Str) :
    displayLen (c :: rest) =
      if c = '\x1b' then displayLen (skipEsc rest) else 1 + displayLen rest := by
  rw [displayLen]

theorem displayLen_skipEsc_le (s : Str) :
    displayLen (skipEsc s) ≤ displayLen s := by
  induction s with
  | nil => simp [skipEsc]
  | cons c rest ih =>
    rw [skipEsc, displayLen_cons]
    by_cases hm : c = 'm'
    · rw [if_pos hm]
      have hne : ¬ c = '\x1b' := by rw [hm]; decide
      rw [if_neg hne]; omega
    · rw [if_neg hm]
      by_cases he : c = '\x1b'
      · rw [if_pos he]
      · rw [if_neg he]; omega

theorem displayLen_le_length (s : Str) : displayLen s ≤ s.length := by
  have H : ∀ n, ∀ s : Str, s.length ≤ n → displayLen s ≤ s.length := by
    intro n
    induction n with
    | zero =>
      intro s hs
      have h0 : s = [] := List.length_eq_zero.mp (Nat.le_zero.mp hs)
      rw [h0, displayLen_nil]
      exact Nat.zero_le _
    | succ n ih =>
      intro s hs
      cases s with
      | nil =>
        rw [displayLen_nil]
        exact Nat.zero_le _
      | cons c rest =>
        rw [displayLen_cons]
        simp only [List.length_cons] at hs ⊢
        by_cases he : c = '\x1b'
        · rw [if_pos he]
          have h1 : (skipEsc rest).length ≤ n :=
            le_trans (skipEsc_len rest) (by omega)
          have := ih (skipEsc rest) h1
          have := skipEsc_len rest
          omega
        · rw [if_neg he]
          have := ih rest (by omega)
          omega
  exact H s.length s (le_refl _)

theorem skipEsc_append_not_mem (a b : Str) (h : 'm' ∉ a) :
    skipEsc (a ++ b) = skipEsc b := by
  induction a with
  | nil => simp
  | cons c rest ih =>
    have hc : ¬ c = 'm' := fun hc => h (by rw [hc]; exact List.mem_cons_self _ _)
    have hr : 'm' ∉ rest := fun hr => h (List.mem_cons_of_mem _ hr)
    simp only [List.cons_append, skipEsc, if_neg hc]
    exact ih hr

theorem skipEsc_append_mem (a b : Str) (h : 'm' ∈ a) :
    skipEsc (a ++ b) = skipEsc a ++ b := by
  induction a with
  | nil => cases h
  | cons c rest ih =>
    simp only [List.cons_append, skipEsc]
    by_cases hc : c = 'm'
    · rw [if_pos hc, if_pos hc]
      simp [List.append_eq]
    · rw [if_neg hc, if_neg hc]
      exact ih (by cases h with
        | head => exact absurd rfl hc
        | tail _ h2 => exact h2)

theorem skipEsc_to_m (codes rest : Str) (h : 'm' ∉ codes) :
    skipEsc (codes ++ 'm' :: rest) = rest := by
  rw [skipEsc_append_not_mem codes _ h, skipEsc, if_pos rfl]

theorem displayLen_escSeq_append (codes rest : Str) (h : 'm' ∉ codes) :
    displayLen (escSeq codes ++ rest) = displayLen rest := by
  have hsh : escSeq codes ++ rest = '\x1b' :: (codes ++ 'm' :: rest) := by
    simp [escSeq]
  rw [hsh, displayLen_cons, if_pos rfl, skipEsc_to_m codes rest h]

theorem displayLen_append_le (a b : Str) :
    displayLen (a ++ b) ≤ displayLen a + displayLen b := by
  have H : ∀ n, ∀ a b : Str, a.length ≤ n →
      displayLen (a ++ b) ≤ displayLen a + displayLen b := by
    intro n
    induction n with
    | zero =>
      intro a b ha
      have h0 : a = [] := List.length_eq_zero.mp (Nat.le_zero.mp ha)
      rw [h0]; simp
    | succ n ih =>
      intro a b ha
      cases a with
      | nil => simp
      | cons c rest =>
        simp only [List.length_cons] at ha
        rw [List.cons_append, displayLen_cons, displayLen_cons]
        by_cases he : c = '\x1b'
        · rw [if_pos he, if_pos he]
          by_cases hm : 'm' ∈ rest
          · rw [skipEsc_append_mem rest b hm]
            have h1 : (skipEsc rest).length ≤ n :=
              le_trans (skipEsc_len rest) (by omega)
            exact ih (skipEsc rest) b h1
          · rw [skipEsc_append_not_mem rest b hm]
            have := displayLen_skipEsc_le b
            omega
        · rw [if_neg he, if_neg he]
          have := ih rest b (by omega)
          omega
  exact H a.length a b (le_refl _)

theorem digitChar_ne_m (d : Nat) : digitChar d ≠ 'm' := by
  unfold digitChar
  split <;> decide

theorem natDigits_not_m (n : Nat) : 'm' ∉ natDigits n := by
  induction n using Nat.strong_induction_on with
  | _ n ih =>
    intro hc
    rw [natDigits] at hc
    by_cases h : n < 10
    · rw [dif_pos h] at hc
      rw [List.mem_singleton] at hc
      exact digitChar_ne_m n hc.symm
    · rw [dif_neg h] at hc
      rcases List.mem_append.mp hc with h1 | h2
      · exact ih (n / 10) (Nat.div_lt_self (by omega) (by norm_num)) h1
      · rw [List.mem_singleton] at h2
        exact digitChar_ne_m (n % 10) h2.symm

theorem displayLen_escSeq_zero (codes : Str) (h : 'm' ∉ codes) :
    displayLen (escSeq codes) = 0 := by
  have h2 := displayLen_escSeq_append codes [] h
  rw [List.append_nil] at h2
  rw [h2, displayLen_nil]

theorem not_mem_app {x : Char} {a b : Str} (ha : x ∉ a) (hb : x ∉ b) :
    x ∉ a ++ b := by
  intro h
  rcases List.mem_append.mp h with h1 | h2
  exacts [ha h1, hb h2]

theorem not_mem_cns {x c : Char} {b : Str} (hc : x ≠ c) (hb : x ∉ b) :
    x ∉ c :: b := by
  intro h
  rcases List.mem_cons.mp h with h1 | h2
  exacts [hc h1, hb h2]

theorem rgbTriple_not_m (r g b : Nat) :
    'm' ∉ (natDigits r ++ ';' :: natDigits g ++ ';' :: natDigits b) :=
  not_mem_app
    (not_mem_app (natDigits_not_m r)
      (not_mem_cns (show ('m' : Char) ≠ ';' by decide) (natDigits_not_m g)))
    (not_mem_cns (show ('m' : Char) ≠ ';' by decide) (natDigits_not_m b))

theorem rgb_codes_not_m (r g b : Nat) :
    'm' ∉ ('[' :: '3' :: '8' :: ';' :: '2' :: ';' ::
      (natDigits r ++ ';' :: natDigits g ++ ';' :: natDigits b)) :=
  not_mem_cns (show ('m' : Char) ≠ '[' by decide)
    (not_mem_cns (show ('m' : Char) ≠ '3' by decide)
      (not_mem_cns (show ('m' : Char) ≠ '8' by decide)
        (not_mem_cns (show ('m' : Char) ≠ ';' by decide)
          (not_mem_cns (show ('m' : Char) ≠ '2' by decide)
            (not_mem_cns (show ('m' : Char) ≠ ';' by decide)
              (rgbTriple_not_m r g b))))))

theorem rgb_codes_bold_not_m (r g b : Nat) :
    'm' ∉ ('[' :: '1' :: ';' :: '3' :: '8' :: ';' :: '2' :: ';' ::
      (natDigits r ++ ';' :: natDigits g ++ ';' :: natDigits b)) :=
  not_mem_cns (show ('m' : Char) ≠ '[' by decide)
    (not_mem_cns (show ('m' : Char) ≠ '1' by decide)
      (not_mem_cns (show ('m' : Char) ≠ ';' by decide)
        (not_mem_cns (show ('m' : Char) ≠ '3' by decide)
          (not_mem_cns (show ('m' : Char) ≠ '8' by decide)
            (not_mem_cns (show ('m' : Char) ≠ ';' by decide)
              (not_mem_cns (show ('m' : Char) ≠ '2' by decide)
                (not_mem_cns (show ('m' : Char) ≠ ';' by decide)
                  (rgbTriple_not_m r g b))))))))

theorem displayLen_paintRgb_le (r g b : Nat) (s : Str) :
    displayLen (paintRgb r g b s) ≤ displayLen s := by
  unfold paintRgb
  rw [List.append_assoc, displayLen_escSeq_append _ _ (rgb_codes_not_m r g b)]
  calc displayLen (s ++ escSeq ['[', '0'])
      ≤ displayLen s + displayLen (escSeq ['[', '0']) :=
        displayLen_append_le _ _
    _ = displayLen s := by
        rw [displayLen_escSeq_zero _ (by decide)]
        omega

theorem displayLen_paintRgbBold_le (r g b : Nat) (s : Str) :
    displayLen (paintRgbBold r g b s) ≤ displayLen s := by
  unfold paintRgbBold
  rw [List.append_assoc, displayLen_escSeq_append _ _
    (rgb_codes_bold_not_m r g b)]
  calc displayLen (s ++ escSeq ['[', '0'])
      ≤ displayLen s + displayLen (escSeq ['[', '0']) :=
        displayLen_append_le _ _
    _ = displayLen s := by
        rw [displayLen_escSeq_zero _ (by decide)]
        omega

theorem format_id_dl (s : Str) (uc : Bool) :
    displayLen (format_id s uc) ≤ displayLen s := by
  unfold format_id
  cases uc with
  | true => exact displayLen_paintRgb_le _ _ _ _
  | false => exact le_refl _

theorem format_header_label_dl (s : Str) (uc : Bool) :
    displayLen (format_header_label s uc) ≤ displayLen s := by
  unfold format_header_label
  cases uc with
  | true => exact displayLen_paintRgbBold_le _ _ _ _
  | false => exact le_refl _

theorem format_timestamp_dl (s : Str) (uc : Bool) :
    displayLen (format_timestamp s uc) ≤ displayLen s := by
  unfold format_timestamp
  cases uc with
  | true => exact displayLen_paintRgb_le _ _ _ _
  | false => exact le_refl _

theorem format_tag_text_dl (s : Str) (uc : Bool) :
    displayLen (format_tag_text s uc) ≤ displayLen s := by
  unfold format_tag_text
  cases uc with
  | true => exact displayLen_paintRgbBold_le _ _ _ _
  | false => exact le_refl _

theorem trunc_length_le (t : Str) (k : Nat) :
    (truncate_with_ellipsis t k).length ≤ k := by
  unfold truncate_with_ellipsis
  by_cases h0 : k = 0
  · rw [if_pos h0]; simp [h0]
  · rw [if_neg h0]
    by_cases h1 : t.length ≤ k
    · rw [if_pos h1]; exact h1
    · rw [if_neg h1]
      by_cases h2 : k = 1
      · rw [if_pos h2]; simp [h2]
      · rw [if_neg h2]
        simp only [List.length_append, List.length_take,
          List.length_singleton]
        omega

theorem displayLen_trunc_le (t : Str) (k : Nat) :
    displayLen (truncate_with_ellipsis t k) ≤ k :=
  le_trans (displayLen_le_length _) (trunc_length_le t k)

theorem pad_field_dl (d : Str) (t l : Nat) (h1 : displayLen d ≤ l)
    (h2 : l ≤ t) : displayLen (pad_field d t l) ≤ t := by
  unfold pad_field
  have h3 := displayLen_append_le d (List.replicate (t - l) ' ')
  have h4 : displayLen (List.replicate (t - l) ' ') ≤ t - l :=
    le_trans (displayLen_le_length _) (by simp)
  omega

theorem tagsGo_spec (uc : Bool) (maxW : Nat) (ts : List Str) :
    ∀ (used : Nat) (first : Bool), used ≤ maxW →
      (tagsGo uc maxW ts used first).2 ≤ maxW ∧
      used ≤ (tagsGo uc maxW ts used first).2 ∧
      displayLen (tagsGo uc maxW ts used first).1 ≤
        (tagsGo uc maxW ts used first).2 - used := by
  induction ts with
  | nil =>
    intro used first hu
    refine ⟨hu, le_refl _, ?_⟩
    rw [tagsGo, displayLen_nil]
    exact Nat.zero_le _
  | cons tag rest ih =>
    intro used first hu
    rw [tagsGo]
    simp only
    by_cases hfit : used + (if first then 0 else 1) + tag.length ≤ maxW
    · rw [if_pos hfit]
      obtain ⟨h1, h2, h3⟩ :=
        ih (used + (if first then 0 else 1) + tag.length) false hfit
      refine ⟨h1, le_trans (by omega) h2, ?_⟩
      show displayLen
        ((if first then ([] : Str) else [' ']) ++ format_tag_text tag uc ++
          (tagsGo uc maxW rest
            (used + (if first then 0 else 1) + tag.length) false).1) ≤
        (tagsGo uc maxW rest
          (used + (if first then 0 else 1) + tag.length) false).2 - used
      have hs : displayLen
          ((if first then ([] : Str) else [' ']) ++ format_tag_text tag uc ++
            (tagsGo uc maxW rest
              (used + (if first then 0 else 1) + tag.length) false).1) ≤
          (if first then 0 else 1) + tag.length +
            displayLen (tagsGo uc maxW rest
              (used + (if first then 0 else 1) + tag.length) false).1 := by
        have ha := displayLen_append_le
          ((if first then ([] : Str) else [' ']) ++ format_tag_text tag uc)
          (tagsGo uc maxW rest
            (used + (if first then 0 else 1) + tag.length) false).1
        have hb := displayLen_append_le
          (if first then ([] : Str) else [' ']) (format_tag_text tag uc)
        have hc : displayLen (if first then ([] : Str) else [' ']) ≤
            (if first then 0 else 1) := by
          cases first with
          | true => rw [if_pos rfl, if_pos rfl, displayLen_nil]
          | false =>
            rw [if_neg (by decide), if_neg (by decide)]
            exact displayLen_le_length _
        have hd : displayLen (format_tag_text tag uc) ≤ tag.length :=
          le_trans (format_tag_text_dl tag uc) (displayLen_le_length _)
        omega
      omega
    · rw [if_neg hfit]
      by_cases hrem : 0 < maxW - (used + (if first then 0 else 1))
      · rw [if_pos hrem]
        have htl : (truncate_with_ellipsis tag
            (maxW - (used + (if first then 0 else 1)))).length ≤
            maxW - (used + (if first then 0 else 1)) := trunc_length_le _ _
        refine ⟨?_, ?_, ?_⟩
        · show used + (if first then 0 else 1) +
            (truncate_with_ellipsis tag
              (maxW - (used + (if first then 0 else 1)))).length ≤ maxW
          omega
        · show used ≤ used + (if first then 0 else 1) +
            (truncate_with_ellipsis tag
              (maxW - (used + (if first then 0 else 1)))).length
          omega
        show displayLen
          ((if first then ([] : Str) else [' ']) ++
            format_tag_text (truncate_with_ellipsis tag
              (maxW - (used + (if first then 0 else 1)))) uc) ≤
          used + (if first then 0 else 1) +
            (truncate_with_ellipsis tag
              (maxW - (used + (if first then 0 else 1)))).length - used
        have ha := displayLen_append_le
          (if first then ([] : Str) else [' '])
          (format_tag_text (truncate_with_ellipsis tag
            (maxW - (used + (if first then 0 else 1)))) uc)
        have hc : displayLen (if first then ([] : Str) else [' ']) ≤
            (if first then 0 else 1) := by
          cases first with
          | true => rw [if_pos rfl, if_pos rfl, displayLen_nil]
          | false =>
            rw [if_neg (by decide), if_neg (by decide)]
            exact displayLen_le_length _
        have hd : displayLen (format_tag_text (truncate_with_ellipsis tag
            (maxW - (used + (if first then 0 else 1)))) uc) ≤
            (truncate_with_ellipsis tag
              (maxW - (used + (if first then 0 else 1)))).length :=
          le_trans (format_tag_text_dl _ uc) (displayLen_le_length _)
        omega
      · rw [if_neg hrem]
        refine ⟨hu, le_refl _, ?_⟩
        show displayLen ([] : Str) ≤ used - used
        rw [displayLen_nil]
        exact Nat.zero_le _

theorem format_tags_clamped_spec (tags : List Str) (maxW : Nat)
    (uc : Bool) :
    (format_tags_clamped tags maxW uc).2 ≤ maxW ∧
    displayLen (format_tags_clamped tags maxW uc).1 ≤
      (format_tags_clamped tags maxW uc).2 := by
  unfold format_tags_clamped
  by_cases h : tags = [] ∨ maxW = 0
  · rw [if_pos h]
    exact ⟨Nat.zero_le _, by rw [displayLen_nil]⟩
  · rw [if_neg h]
    obtain ⟨h1, _, h3⟩ := tagsGo_spec uc maxW tags 0 true (Nat.zero_le _)
    exact ⟨h1, by omega⟩

theorem dl_app_le (a b : Str) (x y : Nat) (ha : displayLen a ≤ x)
    (hb : displayLen b ≤ y) : displayLen (a ++ b) ≤ x + y :=
  le_trans (displayLen_append_le a b) (Nat.add_le_add ha hb)

theorem dl_sep3 : displayLen sep3 ≤ 3 := displayLen_le_length sep3

theorem optField_some_le (c : Str) (l width : Nat) (h1 : displayLen c ≤ l)
    (h2 : l ≤ width) :
    displayLen (optField (some (c, l)) width) ≤ width + 3 :=
  dl_app_le _ _ _ _ (pad_field_dl c width l h1 h2) dl_sep3

theorem optField_none_le (width : Nat) :
    displayLen (optField none width) ≤ 0 := by
  show displayLen ([] : Str) ≤ 0
  rw [displayLen_nil]

theorem tagsField_le (tg : Option (Str × Nat)) (width : Nat)
    (h : ∀ t l, tg = some (t, l) → displayLen t ≤ l ∧ l ≤ width) :
    displayLen (tagsField tg width) ≤ width := by
  rcases tg with _ | ⟨t, l⟩
  · show displayLen (List.replicate width ' ') ≤ width
    exact le_trans (displayLen_le_length _) (by simp)
  · obtain ⟨h1, h2⟩ := h t l rfl
    exact pad_field_dl _ _ _ h1 h2

theorem assemble_row_le (idd : Str) (idl : Nat) (cr : Option (Str × Nat))
    (upd : Str) (updl : Nat) (mv : Option (Str × Nat)) (pv : Str)
    (pvl : Nat) (tg : Option (Str × Nat)) (w : ColumnWidths)
    (hid : displayLen idd ≤ idl) (hidw : idl ≤ w.id)
    (hcr : ∀ c l, cr = some (c, l) →
      w.include_created = true ∧ displayLen c ≤ l ∧ l ≤ w.created)
    (hcrn : cr = none → w.include_created = false)
    (hup : displayLen upd ≤ updl) (hupw : updl ≤ w.updated)
    (hmv : ∀ m l, mv = some (m, l) →
      w.include_moved = true ∧ displayLen m ≤ l ∧ l ≤ w.moved)
    (hmvn : mv = none → w.include_moved = false)
    (hpv : displayLen pv ≤ pvl) (hpvw : pvl ≤ w.preview)
    (htg : ∀ t l, tg = some (t, l) → displayLen t ≤ l ∧ l ≤ w.tags) :
    displayLen (assemble_row idd idl cr upd updl mv pv pvl tg w) ≤
      w.total := by
  have hA : displayLen (pad_field idd w.id idl) ≤ w.id :=
    pad_field_dl _ _ _ hid hidw
  have hU : displayLen (pad_field upd w.updated updl) ≤ w.updated :=
    pad_field_dl _ _ _ hup hupw
  have hP : displayLen (pad_field pv w.preview pvl) ≤ w.preview :=
    pad_field_dl _ _ _ hpv hpvw
  have hT : displayLen
      (if w.include_tags then sep3 ++ tagsField tg w.tags else []) ≤
      (if w.include_tags then w.tags + 3 else 0) := by
    by_cases h : w.include_tags = true
    · rw [if_pos h, if_pos h]
      exact le_trans (dl_app_le _ _ _ _ dl_sep3 (tagsField_le tg w.tags htg))
        (by omega)
    · rw [if_neg h, if_neg h, displayLen_nil]
  have hCB : displayLen (optField cr w.created) ≤
      (if w.include_created then w.created + 3 else 0) := by
    rcases cr with _ | ⟨c, cl⟩
    · have hf := hcrn rfl
      rw [hf]
      exact optField_none_le _
    · obtain ⟨hf, h1, h2⟩ := hcr c cl rfl
      rw [hf]
      exact optField_some_le c cl _ h1 h2
  have hMB : displayLen (optField mv w.moved) ≤
      (if w.include_moved then w.moved + 3 else 0) := by
    rcases mv with _ | ⟨m, ml⟩
    · have hf := hmvn rfl
      rw [hf]
      exact optField_none_le _
    · obtain ⟨hf, h1, h2⟩ := hmv m ml rfl
      rw [hf]
      exact optField_some_le m ml _ h1 h2
  have hrow : displayLen (assemble_row idd idl cr upd updl mv pv pvl tg w) ≤
      w.id + 3 + (if w.include_created then w.created + 3 else 0) +
        w.updated + 3 + (if w.include_moved then w.moved + 3 else 0) +
        w.preview + (if w.include_tags then w.tags + 3 else 0) := by
    unfold assemble_row
    exact dl_app_le _ _ _ _
      (dl_app_le _ _ _ _
        (dl_app_le _ _ _ _
          (dl_app_le _ _ _ _
            (dl_app_le _ _ _ _
              (dl_app_le _ _ _ _
                (dl_app_le _ _ _ _ hA dl_sep3)
                hCB)
              hU)
            dl_sep3)
          hMB)
        hP)
      hT
  refine le_trans hrow ?_
  simp only [ColumnWidths.total]
  split_ifs <;> omega

theorem format_list_row_le (id : Str) (created : Option Str) (updated : Str)
    (moved : Option Str) (pv : Str) (pvl : Nat) (tags : Option (List Str))
    (w : ColumnWidths) (uc : Bool) (fmtC fmtU fmtM : Str → Str) (hdr : Bool)
    (hpv : displayLen pv ≤ pvl) (hpvw : pvl ≤ w.preview) :
    displayLen (format_list_row id created updated moved pv pvl tags w uc
      fmtC fmtU fmtM hdr) ≤ w.total := by
  simp only [format_list_row]
  apply assemble_row_le
  · cases hdr with
    | true => simpa using format_header_label_dl _ uc
    | false => simpa using format_id_dl _ uc
  · exact displayLen_trunc_le _ _
  · intro c l hcl
    by_cases hic : w.include_created = true
    · rw [if_pos hic] at hcl
      rcases created with _ | cv
      · simp at hcl
        obtain ⟨hc, hl⟩ := hcl
        subst hc
        subst hl
        exact ⟨hic, by rw [displayLen_nil], Nat.zero_le _⟩
      · simp only at hcl
        injection hcl with h2
        have hdisp : displayLen (if hdr then
            format_header_label (truncate_with_ellipsis
              (if hdr then cv else fmtC cv) w.created) uc
          else format_timestamp (truncate_with_ellipsis
              (if hdr then cv else fmtC cv) w.created) uc) ≤
            displayLen (truncate_with_ellipsis
              (if hdr then cv else fmtC cv) w.created) := by
          cases hdr with
          | true => simpa using format_header_label_dl _ uc
          | false => simpa using format_timestamp_dl _ uc
        have hw : displayLen (truncate_with_ellipsis
            (if hdr then cv else fmtC cv) w.created) ≤ w.created :=
          displayLen_trunc_le _ _
        injection h2 with hc hl
        subst hc
        subst hl
        exact ⟨hic, hdisp, hw⟩
    · rw [if_neg hic] at hcl
      simp at hcl
  · intro hn
    by_cases hic : w.include_created = true
    · rw [if_pos hic] at hn
      rcases created with _ | cv <;> simp at hn
    · simpa using hic
  · cases hdr with
    | true => simpa using format_header_label_dl _ uc
    | false => simpa using format_timestamp_dl _ uc
  · exact displayLen_trunc_le _ _
  · intro m l hml
    by_cases him : w.include_moved = true
    · rw [if_pos him] at hml
      rcases moved with _ | mval
      · simp at hml
        obtain ⟨hm, hl⟩ := hml
        subst hm
        subst hl
        exact ⟨him, by rw [displayLen_nil], Nat.zero_le _⟩
      · simp only at hml
        injection hml with h2
        have hdisp : displayLen (if hdr then
            format_header_label (truncate_with_ellipsis
              (if hdr then mval else fmtM mval) w.moved) uc
          else format_timestamp (truncate_with_ellipsis
              (if hdr then mval else fmtM mval) w.moved) uc) ≤
            displayLen (truncate_with_ellipsis
              (if hdr then mval else fmtM mval) w.moved) := by
          cases hdr with
          | true => simpa using format_header_label_dl _ uc
          | false => simpa using format_timestamp_dl _ uc
        have hw : displayLen (truncate_with_ellipsis
            (if hdr then mval else fmtM mval) w.moved) ≤ w.moved :=
          displayLen_trunc_le _ _
        injection h2 with hm hl
        subst hm
        subst hl
        exact ⟨him, hdisp, hw⟩
    · rw [if_neg him] at hml
      simp at hml
  · intro hn
    by_cases him : w.include_moved = true
    · rw [if_pos him] at hn
      rcases moved with _ | mval <;> simp at hn
    · simpa using him
  · cases hdr with
    | true => simpa using le_trans (format_header_label_dl pv uc) hpv
    | false => simpa using hpv
  · exact hpvw
  · intro t l h
    by_cases hit : w.include_tags = true
    · simp only [if_pos hit] at h
      have hs := format_tags_clamped_spec (tags.getD []) w.tags uc
      have h2 := Option.some.inj h
      rw [h2] at hs
      exact ⟨hs.2, hs.1⟩
    · rw [if_neg hit] at h
      simp at h

theorem stepW_spec (cond : Prop) [Decidable cond] (v m : Nat) (e : Int) :
    ∃ v2 e2, stepW cond v m e = (v2, e2) ∧ v2 ≤ v ∧
      ((v : Int) - (v2 : Int) = e - e2) ∧ e2 ≤ e ∧
      (0 < e2 → cond → v2 ≤ m) ∧ (¬ cond → v2 = v ∧ e2 = e) := by
  unfold stepW reduceW
  by_cases hc : cond
  · rw [if_pos hc]
    by_cases he : e ≤ 0
    · rw [if_pos he]
      exact ⟨v, e, rfl, le_refl _, by omega, le_refl _,
        fun hp _ => absurd hp (by omega), fun h2 => absurd hc h2⟩
    · rw [if_neg he]
      refine ⟨_, _, rfl, by omega, by omega, by omega,
        fun hp _ => by omega, fun h2 => absurd hc h2⟩
  · rw [if_neg hc]
    exact ⟨v, e, rfl, le_refl _, by omega, le_refl _,
      fun _ hcc => absurd hcc hc, fun _ => ⟨rfl, rfl⟩⟩

theorem shrink_total_le (w : ColumnWidths) (term : Nat) (rel : Bool)
    (area : Area) (tz : Option Str)
    (h : (minWidths w rel area tz).total ≤ term) :
    (shrink_widths w term rel area tz).total ≤ term := by
  simp only [shrink_widths]
  obtain ⟨v1, e1, q1, a1, b1, c1, d1, n1⟩ :=
    stepW_spec (0 < (w.total : Int) - (term : Int)) w.preview 4
      ((w.total : Int) - (term : Int))
  rw [q1]
  dsimp only
  obtain ⟨v2, e2, q2, a2, b2, c2, d2, n2⟩ :=
    stepW_spec (0 < e1 ∧ w.include_moved = true) w.moved
      (moved_label area rel tz).length e1
  rw [q2]
  dsimp only
  obtain ⟨v3, e3, q3, a3, b3, c3, d3, n3⟩ :=
    stepW_spec (0 < e2 ∧ w.include_created = true) w.created
      (time_label lCreated rel tz).length e2
  rw [q3]
  dsimp only
  obtain ⟨v4, e4, q4, a4, b4, c4, d4, n4⟩ :=
    stepW_spec (0 < e3 ∧ w.include_tags = true) w.tags 4 e3
  rw [q4]
  dsimp only
  obtain ⟨v5, e5, q5, a5, b5, c5, d5, n5⟩ :=
    stepW_spec (0 < e4) w.updated (updated_label rel tz).length e4
  rw [q5]
  dsimp only
  obtain ⟨v6, e6, q6, a6, b6, c6, d6, n6⟩ :=
    stepW_spec (0 < e5) w.id lID.length e5
  rw [q6]
  dsimp only
  simp only [ColumnWidths.total, minWidths] at h b1 ⊢
  by_cases hpos : 0 < e6
  · have he5 : 0 < e5 := lt_of_lt_of_le hpos c6
    have he4 : 0 < e4 := lt_of_lt_of_le he5 c5
    have he3 : 0 < e3 := lt_of_lt_of_le he4 c4
    have he2 : 0 < e2 := lt_of_lt_of_le he3 c3
    have he1 : 0 < e1 := lt_of_lt_of_le he2 c2
    have hv1 : v1 ≤ 4 := d1 he1 (lt_of_lt_of_le he1 c1)
    have hv5 : v5 ≤ (updated_label rel tz).length := d5 he5 he4
    have hv6 : v6 ≤ lID.length := d6 hpos he5
    have h2 : (w.include_moved = true ∧
        v2 ≤ (moved_label area rel tz).length) ∨
        (¬ w.include_moved = true ∧ v2 = w.moved ∧ e2 = e1) := by
      by_cases him : w.include_moved = true
      · exact Or.inl ⟨him, d2 he2 ⟨he1, him⟩⟩
      · obtain ⟨hv, he⟩ := n2 (fun hcc => him hcc.2)
        exact Or.inr ⟨him, hv, he⟩
    have h3 : (w.include_created = true ∧
        v3 ≤ (time_label lCreated rel tz).length) ∨
        (¬ w.include_created = true ∧ v3 = w.created ∧ e3 = e2) := by
      by_cases hic : w.include_created = true
      · exact Or.inl ⟨hic, d3 he3 ⟨he2, hic⟩⟩
      · obtain ⟨hv, he⟩ := n3 (fun hcc => hic hcc.2)
        exact Or.inr ⟨hic, hv, he⟩
    have h4 : (w.include_tags = true ∧ v4 ≤ 4) ∨
        (¬ w.include_tags = true ∧ v4 = w.tags ∧ e4 = e3) := by
      by_cases hit : w.include_tags = true
      · exact Or.inl ⟨hit, d4 he4 ⟨he3, hit⟩⟩
      · obtain ⟨hv, he⟩ := n4 (fun hcc => hit hcc.2)
        exact Or.inr ⟨hit, hv, he⟩
    rcases h2 with ⟨him, hm2⟩ | ⟨him, hv2, hee2⟩ <;>
      rcases h3 with ⟨hic, hm3⟩ | ⟨hic, hv3, hee3⟩ <;>
        rcases h4 with ⟨hit, hm4⟩ | ⟨hit, hv4, hee4⟩ <;>
          simp [him, hic, hit] at h b1 c1 ⊢ <;>
          omega
  · have h2 : w.include_moved = true ∨
        (¬ w.include_moved = true ∧ v2 = w.moved ∧ e2 = e1) := by
      by_cases him : w.include_moved = true
      · exact Or.inl him
      · obtain ⟨hv, he⟩ := n2 (fun hcc => him hcc.2)
        exact Or.inr ⟨him, hv, he⟩
    have h3 : w.include_created = true ∨
        (¬ w.include_created = true ∧ v3 = w.created ∧ e3 = e2) := by
      by_cases hic : w.include_created = true
      · exact Or.inl hic
      · obtain ⟨hv, he⟩ := n3 (fun hcc => hic hcc.2)
        exact Or.inr ⟨hic, hv, he⟩
    have h4 : w.include_tags = true ∨
        (¬ w.include_tags = true ∧ v4 = w.tags ∧ e4 = e3) := by
      by_cases hit : w.include_tags = true
      · exact Or.inl hit
      · obtain ⟨hv, he⟩ := n4 (fun hcc => hit hcc.2)
        exact Or.inr ⟨hit, hv, he⟩
    rcases h2 with him | ⟨him, hv2, hee2⟩ <;>
      rcases h3 with hic | ⟨hic, hv3, hee3⟩ <;>
        rcases h4 with hit | ⟨hit, hv4, hee4⟩ <;>
          simp [him, hic, hit] at h b1 c1 ⊢ <;>
          omega

/-- C6: whenever the sum of all column minimum widths (`minWidths`, the
floors `shrink_widths` respects, with the same include flags) is at most
`terminal_width`, every rendered row of the list view — the header row and
every data row — measures at most `terminal_width` Unicode scalars when
measured with `display_len`, i.e. ignoring ANSI escape sequences. -/
theorem layout_rows_fit (w0 : ColumnWidths) (term : Nat) (rel uc : Bool)
    (area : Area) (tz : Option Str) (fmtC fmtU fmtM : Str → Str)
    (id updated previewS : Str) (created moved : Option Str)
    (tags : List Str)
    (h : (minWidths w0 rel area tz).total ≤ term) :
    displayLen (renderHeaderRow (shrink_widths w0 term rel area tz) uc rel
        tz area fmtC fmtU fmtM) ≤ term ∧
    displayLen (renderNoteRow (shrink_widths w0 term rel area tz) uc
        fmtC fmtU fmtM id created updated moved previewS tags) ≤ term := by
  have htot := shrink_total_le w0 term rel area tz h
  constructor
  · refine le_trans ?_ htot
    unfold renderHeaderRow
    exact format_list_row_le _ _ _ _ _ _ _ _ _ _ _ _ _ (le_refl _)
      (displayLen_trunc_le _ _)
  · refine le_trans ?_ htot
    unfold renderNoteRow
    exact format_list_row_le _ _ _ _ _ _ _ _ _ _ _ _ _ (le_refl _)
      (displayLen_trunc_le _ _)

theorem layout_rows_fit_witness :
    (minWidths wit6 true Area.Active none).total ≤ 80 ∧
    (displayLen (renderHeaderRow (shrink_widths wit6 80 true Area.Active
        none) false true none Area.Active (fun s => s) (fun s => s)
        (fun s => s)) ≤ 80 ∧
      displayLen (renderNoteRow (shrink_widths wit6 80 true Area.Active
        none) false (fun s => s) (fun s => s) (fun s => s) ['0', '1'] none
        ['2'] none ['h', 'i'] [['w']]) ≤ 80) :=
  ⟨by decide,
    layout_rows_fit wit6 80 true false Area.Active none (fun s => s)
      (fun s => s) (fun s => s) ['0', '1'] ['2'] ['h', 'i'] none none
      [['w']] (by decide)⟩
